import Mathlib

/- Verification of the Egon dataflow framework (connectors, nodes, pipelines).
   Each Python operation from the repository is shallowly embedded as an
   executable Lean definition; machine behaviour such as raised exceptions is
   represented with explicit result types.  Theorems settle the frozen claims
   about the specification. -/

set_option linter.unusedVariables false

namespace Egon

/- ============================================================ -/
/- Connector layer: InputConnector.get (src/egon/connectors.py) -/
/- ============================================================ -/

/-- Result of a call to `InputConnector.get`.  `ret x rest` means the call
returned item `x`, leaving the queue as `rest` (the queue pop removes the
oldest element).  The error constructors stand for the Python exceptions
`TimeoutError`, `queue.Empty` and `ValueError` respectively. -/
inductive GetResult
  | ret (x : Int) (rest : List Int)
  | timeoutError
  | emptyError
  | valueError
deriving DecidableEq, Repr

namespace InputConnector

/-- Embedding of the `while timeout > 0` loop of `InputConnector.get`
(src/egon/connectors.py lines 159-171).  The concurrent environment is
modelled by two oracles: `queueAt k` is the content of the underlying queue
observed when the k-th blocking wait `self._queue.get(timeout=this_timeout)`
completes (an empty list means the wait timed out and raised `queue.Empty`),
and `expecting k` is the value `self.parent_node.is_expecting_data()` returns
at the k-th re-check.  `hasParent` is the truthiness of `self.parent_node`.
Each loop round: wait for `min timeout refresh` seconds; a non-empty queue
returns its head (the oldest item); otherwise the budget is decremented and
either the loop continues (parent still expecting data) or the caught
`queue.Empty` is re-raised.  When the budget reaches zero the loop exits and
raises `TimeoutError`. -/
def getLoop (queueAt : Nat → List Int) (expecting : Nat → Bool) (hasParent : Bool)
    (r : Nat) (hr : 0 < r) : Nat → Nat → GetResult
  | timeout, k =>
    if h : timeout = 0 then .timeoutError
    else
      match queueAt k with
      | x :: rest => .ret x rest
      | [] =>
        if hasParent && expecting k then
          getLoop queueAt expecting hasParent r hr (timeout - min timeout r) (k + 1)
        else .emptyError
termination_by timeout _ => timeout
decreasing_by
  have : 0 < min timeout r := by omega
  omega

/-- Embedding of `InputConnector.get(timeout, refresh_interval)`
(src/egon/connectors.py lines 140-173).  A non-positive `refresh_interval`
raises `ValueError` before any waiting.  There is no check on `timeout`: a
non-positive finite `timeout` makes the `while timeout > 0` loop exit at once
and raise `TimeoutError`.  The `timeout=None` case (budget set to infinity)
is an unbounded wait and is outside this finite-budget model; every claim
about `get` concerns finite timeouts. -/
def get (queueAt : Nat → List Int) (expecting : Nat → Bool) (hasParent : Bool)
    (timeout refresh : Int) : GetResult :=
  if h : refresh ≤ 0 then .valueError
  else getLoop queueAt expecting hasParent refresh.toNat (by omega) timeout.toNat 0

theorem getLoop_timeout (queueAt : Nat → List Int) (expecting : Nat → Bool)
    (r : Nat) (hr : 0 < r) (hq : ∀ k, queueAt k = []) (he : ∀ k, expecting k = true) :
    ∀ t k, getLoop queueAt expecting true r hr t k = .timeoutError := by
  intro t
  induction t using Nat.strong_induction_on with
  | _ t ih =>
    intro k
    rw [getLoop]
    by_cases h : t = 0
    · simp [h]
    · simp only [h, dite_false, hq k, he k]
      simp only [Bool.and_self, if_true]
      exact ih (t - min t r) (by omega) (k + 1)

theorem getLoop_empty (queueAt : Nat → List Int) (expecting : Nat → Bool)
    (r : Nat) (hr : 0 < r) (hq : ∀ k, queueAt k = []) :
    ∀ n t k, (∀ j < n, expecting (k + j) = true) → expecting (k + n) = false →
      n * r < t → getLoop queueAt expecting true r hr t k = .emptyError := by
  intro n
  induction n with
  | zero =>
    intro t k he hf ht
    rw [getLoop]
    have ht0 : 0 < t := by simpa using ht
    have h : ¬ t = 0 := by omega
    have hfk : expecting k = false := by simpa using hf
    simp [h, hq k, hfk]
  | succ n ih =>
    intro t k he hf ht
    rw [Nat.succ_mul] at ht
    have ht0 : 0 < t := Nat.lt_of_le_of_lt (Nat.zero_le _) ht
    have hrt : r ≤ t := le_of_lt (Nat.lt_of_le_of_lt (Nat.le_add_left r _) ht)
    have h : ¬ t = 0 := by omega
    rw [getLoop]
    simp only [h, dite_false, hq k]
    have h0 : expecting k = true := by simpa using he 0 (by omega)
    simp only [h0, Bool.and_self, if_true]
    have hmin : min t r = r := by omega
    rw [hmin]
    have := ih (t - r) (k + 1)
      (fun j hj => by
        have := he (j + 1) (by omega)
        simpa [Nat.add_assoc, Nat.add_comm 1 j] using this)
      (by
        have : k + 1 + n = k + (n + 1) := by omega
        rw [this]; exact hf)
      (Nat.lt_sub_of_add_lt ht)
    exact this

theorem getLoop_ret (queueAt : Nat → List Int) (expecting : Nat → Bool)
    (r : Nat) (hr : 0 < r) :
    ∀ n t k x rest, (∀ j < n, queueAt (k + j) = [] ∧ expecting (k + j) = true) →
      queueAt (k + n) = x :: rest → n * r < t →
      getLoop queueAt expecting true r hr t k = .ret x rest := by
  intro n
  induction n with
  | zero =>
    intro t k x rest he hx ht
    rw [getLoop]
    have ht0 : 0 < t := by simpa using ht
    have h : ¬ t = 0 := by omega
    have hxk : queueAt k = x :: rest := by simpa using hx
    simp only [h, dite_false, hxk]
  | succ n ih =>
    intro t k x rest he hx ht
    rw [Nat.succ_mul] at ht
    have ht0 : 0 < t := Nat.lt_of_le_of_lt (Nat.zero_le _) ht
    have hrt : r ≤ t := le_of_lt (Nat.lt_of_le_of_lt (Nat.le_add_left r _) ht)
    have h : ¬ t = 0 := by omega
    rw [getLoop]
    have h0 := he 0 (by omega)
    simp only [Nat.add_zero] at h0
    simp only [h, dite_false, h0.1, h0.2, Bool.and_self, if_true]
    have hmin : min t r = r := by omega
    rw [hmin]
    exact ih (t - r) (k + 1) x rest
      (fun j hj => by
        have := he (j + 1) (by omega)
        simpa [Nat.add_assoc, Nat.add_comm 1 j] using this)
      (by
        have : k + 1 + n = k + (n + 1) := by omega
        rw [this]; exact hx)
      (Nat.lt_sub_of_add_lt ht)

theorem toNat_mul_lt {n : Nat} {r t : Int} (hr : 0 < r) (h : (n : Int) * r < t) :
    n * r.toNat < t.toNat := by
  have h1 : ((n * r.toNat : Nat) : Int) = (n : Int) * r := by
    push_cast [Int.toNat_of_nonneg hr.le]
    ring
  rw [Int.lt_toNat, h1]
  exact h

/-- Claim C1: for an `InputConnector` with a parent node, `get` on an empty
queue raises `TimeoutError` when the budget is exhausted while the parent is
still expecting data; it raises `queue.Empty` as soon as a periodic re-check
finds `is_expecting_data()` false; and if an item arrives first, the oldest
item is removed from the queue and returned. -/
theorem get_timeout_empty_or_ret (queueAt : Nat → List Int) (expecting : Nat → Bool)
    (t r : Int) (hr : 0 < r) :
    ((∀ k, queueAt k = []) → (∀ k, expecting k = true) →
      get queueAt expecting true t r = .timeoutError) ∧
    (∀ n : Nat, (∀ k, queueAt k = []) → (∀ j < n, expecting j = true) →
      expecting n = false → (n : Int) * r < t →
      get queueAt expecting true t r = .emptyError) ∧
    (∀ (n : Nat) (x : Int) (rest : List Int),
      (∀ j < n, queueAt j = [] ∧ expecting j = true) →
      queueAt n = x :: rest → (n : Int) * r < t →
      get queueAt expecting true t r = .ret x rest) := by
  have hr' : ¬ r ≤ 0 := by omega
  refine ⟨?_, ?_, ?_⟩
  · intro hq he
    rw [get]
    simp only [hr', dite_false]
    exact getLoop_timeout queueAt expecting r.toNat (by omega) hq he t.toNat 0
  · intro n hq he hf hlt
    rw [get]
    simp only [hr', dite_false]
    exact getLoop_empty queueAt expecting r.toNat (by omega) hq n t.toNat 0
      (fun j hj => by simpa using he j hj) (by simpa using hf)
      (toNat_mul_lt hr hlt)
  · intro n x rest he hx hlt
    rw [get]
    simp only [hr', dite_false]
    exact getLoop_ret queueAt expecting r.toNat (by omega) n t.toNat 0 x rest
      (fun j hj => by simpa using he j hj) (by simpa using hx)
      (toNat_mul_lt hr hlt)

/-- Witness for C1: concrete runs of the three branches. -/
theorem get_timeout_empty_or_ret_witness :
    get (fun _ => []) (fun _ => true) true 5 2 = .timeoutError ∧
    get (fun _ => []) (fun k => decide (k < 1)) true 9 2 = .emptyError ∧
    get (fun k => if k < 1 then [] else [7, 8]) (fun _ => true) true 9 2 = .ret 7 [8] := by
  refine ⟨?_, ?_, ?_⟩
  · exact (get_timeout_empty_or_ret (fun _ => []) (fun _ => true) 5 2 (by omega)).1
      (fun _ => rfl) (fun _ => rfl)
  · exact (get_timeout_empty_or_ret (fun _ => []) (fun k => decide (k < 1)) 9 2
      (by omega)).2.1 1 (fun _ => rfl) (fun j hj => by interval_cases j <;> rfl)
      (by rfl) (by norm_num)
  · exact (get_timeout_empty_or_ret (fun k => if k < 1 then [] else [7, 8])
      (fun _ => true) 9 2 (by omega)).2.2 1 7 [8]
      (fun j hj => by interval_cases j <;> exact ⟨rfl, rfl⟩) (by rfl) (by norm_num)

/-- Claim C8: `get` validates `refresh_interval` (a non-positive value raises
`ValueError` before any waiting), but a negative `timeout` does not raise
`ValueError`: the `while timeout > 0` loop is skipped and the call raises
`TimeoutError` instead.  The second conjunct evaluates the code at the
failing input of the claim. -/
theorem get_argument_validation (queueAt : Nat → List Int) (expecting : Nat → Bool)
    (hasParent : Bool) :
    (∀ t r : Int, r ≤ 0 → get queueAt expecting hasParent t r = .valueError) ∧
    (get queueAt expecting hasParent (-1) 2 = .timeoutError ∧
      get queueAt expecting hasParent (-1) 2 ≠ .valueError) := by
  have key : get queueAt expecting hasParent (-1) 2 = .timeoutError := by
    rw [get]
    have h2 : ¬ (2 : Int) ≤ 0 := by norm_num
    simp only [h2, dite_false]
    rw [show ((-1 : Int)).toNat = 0 from rfl]
    rw [getLoop]
    simp
  exact ⟨fun t r h => by rw [get]; simp [h], key, by simp [key]⟩

/-- Witness for C8 at concrete arguments. -/
theorem get_argument_validation_witness :
    get (fun _ => []) (fun _ => true) true 15 0 = .valueError ∧
    get (fun _ => []) (fun _ => true) true 15 (-1) = .valueError ∧
    get (fun _ => []) (fun _ => true) true (-1) 2 = .timeoutError := by
  refine ⟨?_, ?_, ?_⟩
  · exact (get_argument_validation (fun _ => []) (fun _ => true) true).1 15 0 (by omega)
  · exact (get_argument_validation (fun _ => []) (fun _ => true) true).1 15 (-1) (by omega)
  · exact (get_argument_validation (fun _ => []) (fun _ => true) true).2.1

end InputConnector

/- ===================================================================== -/
/- Object graph state: connectors, their partner sets, queues and nodes. -/
/- ===================================================================== -/

/-- Concrete class of a connector object (`BaseConnector`, `InputConnector`
or `OutputConnector`); `OutputConnector.connect` compares `type(conn)` with
`type(self)`. -/
inductive ConnKind
  | base
  | input
  | output
deriving DecidableEq, Repr

/-- Python exceptions raised by the connector operations:  `ValueError`,
`egon.exceptions.MissingConnectionError`, and the `KeyError` of
`set.remove`. -/
inductive EgonErr
  | valueError
  | missingConnection
  | keyError
deriving DecidableEq, Repr

/-- Arena-style state of the object graph.  Connectors and nodes are
identified by natural numbers.  `partners c` is the `_connected_partners`
set of connector `c` (a Python `set`, kept duplicate-free by the
operations); `parent c` is its `_node` back-reference; `queue c` is the
content of the underlying `multiprocessing` queue of an input connector,
oldest item first; `connName c` is its `name`.  For a node `n`,
`nodeInputs n` and `nodeOutputs n` are its `_inputs` and `_outputs` lists
and `nodeStates n` the completion flags of the `_states` dict of its
`MultiprocessingEngine`. -/
structure World where
  kind : Nat → ConnKind
  partners : Nat → List Nat
  parent : Nat → Option Nat
  queue : Nat → List Int
  connName : Nat → String
  nodeInputs : Nat → List Nat
  nodeOutputs : Nat → List Nat
  nodeStates : Nat → List Bool

/-- Pointwise update of a function-valued field. -/
def fupdate {α : Type} (f : Nat → α) (x : Nat) (v : α) : Nat → α :=
  fun y => if y = x then v else f y

@[simp] theorem fupdate_same {α : Type} (f : Nat → α) (x : Nat) (v : α) :
    fupdate f x v x = v := by simp [fupdate]

theorem fupdate_other {α : Type} (f : Nat → α) (x y : Nat) (v : α) (h : y ≠ x) :
    fupdate f x v y = f y := by simp [fupdate, h]

namespace BaseConnector

/-- Embedding of `BaseConnector._add_partner` (src/egon/connectors.py lines
49-56): `self._connected_partners.add(other)`. -/
def addPartner (w : World) (c other : Nat) : World :=
  { w with partners := fupdate w.partners c ((w.partners c).insert other) }

/-- Embedding of `BaseConnector._remove_partner` (src/egon/connectors.py
lines 58-65): `self._connected_partners.remove(other)`, which raises
`KeyError` when `other` is not in the set. -/
def removePartner (w : World) (c other : Nat) : Except EgonErr World :=
  if other ∈ w.partners c then
    .ok { w with partners := fupdate w.partners c ((w.partners c).erase other) }
  else .error .keyError

/-- Embedding of `BaseConnector.is_connected` (src/egon/connectors.py lines
73-76). -/
def isConnected (w : World) (c : Nat) : Bool :=
  !(w.partners c).isEmpty

end BaseConnector

namespace OutputConnector

/-- Embedding of `OutputConnector.connect` (src/egon/connectors.py lines
206-220): same-type arguments raise `ValueError`; otherwise the two
connectors record each other as partners. -/
def connect (w : World) (self conn : Nat) : Except EgonErr World :=
  if w.kind conn = w.kind self then .error .valueError
  else .ok (BaseConnector.addPartner (BaseConnector.addPartner w self conn) conn self)

/-- Embedding of `OutputConnector.disconnect` (src/egon/connectors.py lines
222-237): a non-partner argument raises `MissingConnectionError`; otherwise
both connectors remove each other (`conn._remove_partner(self)` first). -/
def disconnect (w : World) (self conn : Nat) : Except EgonErr World :=
  if conn ∈ w.partners self then
    match BaseConnector.removePartner w conn self with
    | .error e => .error e
    | .ok w1 => BaseConnector.removePartner w1 self conn
  else .error .missingConnection

/-- Embedding of the loop `for partner in self._connected_partners:
partner._put(item)` of `OutputConnector.put`; `InputConnector._put` appends
the item at the tail of the partner queue. -/
def putAll (item : Int) : List Nat → (Nat → List Int) → (Nat → List Int)
  | [], q => q
  | p :: ps, q => putAll item ps (fupdate q p (q p ++ [item]))

/-- Embedding of `OutputConnector.put` (src/egon/connectors.py lines
239-253): an unconnected output raises `MissingConnectionError`, otherwise
the item is enqueued into every partner input. -/
def put (w : World) (self : Nat) (item : Int) : Except EgonErr World :=
  if BaseConnector.isConnected w self = false then .error .missingConnection
  else .ok { w with queue := putAll item (w.partners self) w.queue }

theorem putAll_not_mem (item : Int) (ps : List Nat) (q : Nat → List Int) (i : Nat)
    (h : i ∉ ps) : putAll item ps q i = q i := by
  induction ps generalizing q with
  | nil => rfl
  | cons p rest ih =>
    have hip : i ≠ p := by intro he; exact h (he ▸ List.mem_cons_self p rest)
    rw [putAll, ih _ (fun hm => h (List.mem_cons_of_mem p hm))]
    exact fupdate_other _ _ _ _ hip

theorem putAll_mem (item : Int) (ps : List Nat) (q : Nat → List Int) (i : Nat)
    (hnd : ps.Nodup) (h : i ∈ ps) : putAll item ps q i = q i ++ [item] := by
  induction ps generalizing q with
  | nil => cases h
  | cons p rest ih =>
    rw [putAll]
    rcases List.mem_cons.mp h with he | hm
    · subst he
      rw [putAll_not_mem _ _ _ _ (List.Nodup.not_mem hnd)]
      simp
    · have hip : i ≠ p := by
        intro he
        exact (List.Nodup.not_mem hnd) (he ▸ hm)
      rw [ih _ (List.Nodup.of_cons hnd) hm, fupdate_other _ _ _ _ hip]

theorem sum_map_succ (ps : List Nat) (f g : Nat → Nat)
    (h : ∀ i ∈ ps, g i = f i + 1) :
    (ps.map g).sum = (ps.map f).sum + ps.length := by
  induction ps with
  | nil => rfl
  | cons p rest ih =>
    simp only [List.map_cons, List.sum_cons, List.length_cons,
      h p (List.mem_cons_self p rest),
      ih (fun i hi => h i (List.mem_cons_of_mem p hi))]
    omega

/-- Claim C2: `put(item)` on an output with no partners raises
`MissingConnectionError` and changes no queue; with `k ≥ 1` partners it
appends exactly one occurrence of the item at the tail of each of the `k`
partner queues, so the total number of occurrences across the partner
queues grows by exactly `k` (fan-out conservation). -/
theorem put_fanout (w : World) (c : Nat) (x : Int) :
    (w.partners c = [] → put w c x = .error .missingConnection) ∧
    ((w.partners c).Nodup → w.partners c ≠ [] →
      ∃ w2, put w c x = .ok w2 ∧
        (∀ i ∈ w.partners c, w2.queue i = w.queue i ++ [x]) ∧
        (∀ i, i ∉ w.partners c → w2.queue i = w.queue i) ∧
        ((w.partners c).map fun i => (w2.queue i).count x).sum
          = ((w.partners c).map fun i => (w.queue i).count x).sum
            + (w.partners c).length) := by
  constructor
  · intro h
    rw [put]
    simp [BaseConnector.isConnected, h]
  · intro hnd hne
    have hc : BaseConnector.isConnected w c = true := by
      simp [BaseConnector.isConnected, List.isEmpty_iff, hne]
    refine ⟨{ w with queue := putAll x (w.partners c) w.queue },
      by rw [put]; simp [hc], ?_, ?_, ?_⟩
    · intro i hi
      exact putAll_mem x (w.partners c) w.queue i hnd hi
    · intro i hi
      exact putAll_not_mem x (w.partners c) w.queue i hi
    · refine sum_map_succ _ _ _ (fun i hi => ?_)
      dsimp only
      rw [putAll_mem x (w.partners c) w.queue i hnd hi]
      simp

end OutputConnector

/-- Concrete world used by witnesses: output connector 0 is connected to
input connectors 1 and 2; all queues are empty; node 0 owns output 0, node
1 owns inputs 1 and 2. -/
def w0 : World where
  kind := fun c => if c = 0 then .output else .input
  partners := fun c => if c = 0 then [1, 2] else if c ≤ 2 then [0] else []
  parent := fun c => if c ≤ 2 then some (if c = 0 then 0 else 1) else none
  queue := fun _ => []
  connName := fun _ => "conn"
  nodeInputs := fun n => if n = 1 then [1, 2] else []
  nodeOutputs := fun n => if n = 0 then [0] else []
  nodeStates := fun _ => [false]

/-- Witness for C2: a concrete fan-out `put` into two partner queues. -/
theorem put_fanout_witness :
    (w0.partners 0).Nodup ∧ w0.partners 0 ≠ [] ∧
    ∃ w2, OutputConnector.put w0 0 5 = .ok w2 ∧
      w2.queue 1 = [5] ∧ w2.queue 2 = [5] ∧ w2.queue 3 = [] := by
  refine ⟨by decide, by decide, ?_⟩
  obtain ⟨w2, hok, hmem, hnot, _⟩ :=
    (OutputConnector.put_fanout w0 0 5).2 (by decide) (by decide)
  refine ⟨w2, hok, ?_, ?_, ?_⟩
  · have := hmem 1 (by decide)
    simpa [w0] using this
  · have := hmem 2 (by decide)
    simpa [w0] using this
  · have := hnot 3 (by decide)
    simpa [w0] using this

namespace OutputConnector

/-- Claim C7: for an output connector `a` and an input connector `b`,
`a.connect(b)` records each connector in the partner set of the other
(symmetric attach); a second `a.connect(b)` leaves both partner sets
unchanged (idempotent); and after `a.disconnect(b)` neither connector is in
the partner set of the other.  The `Nodup` hypotheses state the Python
`set` representation invariant of the partner lists. -/
theorem connect_disconnect (w : World) (a b : Nat)
    (ha : w.kind a = .output) (hb : w.kind b = .input)
    (hna : (w.partners a).Nodup) (hnb : (w.partners b).Nodup) :
    ∃ w1, connect w a b = .ok w1 ∧
      (b ∈ w1.partners a ∧ a ∈ w1.partners b) ∧
      (∃ w1x, connect w1 a b = .ok w1x ∧
        w1x.partners a = w1.partners a ∧ w1x.partners b = w1.partners b) ∧
      (∃ w2, disconnect w1 a b = .ok w2 ∧
        b ∉ w2.partners a ∧ a ∉ w2.partners b) := by
  have hab : a ≠ b := by
    intro h
    rw [h, hb] at ha
    cases ha
  have hba : b ≠ a := fun h => hab h.symm
  have hkind : ¬ w.kind b = w.kind a := by rw [ha, hb]; intro h; cases h
  refine ⟨BaseConnector.addPartner (BaseConnector.addPartner w a b) b a,
    by rw [connect]; simp [hkind], ?_⟩
  set w1 := BaseConnector.addPartner (BaseConnector.addPartner w a b) b a with hw1
  have h1a : w1.partners a = (w.partners a).insert b := by
    simp [hw1, BaseConnector.addPartner, fupdate, hab]
  have h1b : w1.partners b = (w.partners b).insert a := by
    simp [hw1, BaseConnector.addPartner, fupdate, hba]
  have hmem1a : b ∈ w1.partners a := by rw [h1a]; exact List.mem_insert_self b _
  have hmem1b : a ∈ w1.partners b := by rw [h1b]; exact List.mem_insert_self a _
  have h1kind : w1.kind = w.kind := by simp [hw1, BaseConnector.addPartner]
  refine ⟨⟨hmem1a, hmem1b⟩, ?_, ?_⟩
  · refine ⟨BaseConnector.addPartner (BaseConnector.addPartner w1 a b) b a,
      by rw [connect]; simp [h1kind, hkind], ?_, ?_⟩
    · simp only [BaseConnector.addPartner]
      rw [fupdate_other _ _ _ _ hab, fupdate_same]
      exact List.insert_of_mem hmem1a
    · simp only [BaseConnector.addPartner]
      rw [fupdate_same, fupdate_other _ _ _ _ hba]
      exact List.insert_of_mem hmem1b
  · have hstep1 : BaseConnector.removePartner w1 b a =
        .ok { w1 with partners := fupdate w1.partners b ((w1.partners b).erase a) } := by
      rw [BaseConnector.removePartner]
      simp [hmem1b]
    set w1r : World := { w1 with partners := fupdate w1.partners b ((w1.partners b).erase a) }
      with hw1r
    have h1ra : w1r.partners a = w1.partners a := by
      simp [hw1r]
      exact fupdate_other _ _ _ _ hab
    have hstep2 : BaseConnector.removePartner w1r a b =
        .ok { w1r with partners := fupdate w1r.partners a ((w1r.partners a).erase b) } := by
      rw [BaseConnector.removePartner]
      rw [h1ra]
      simp [hmem1a]
    refine ⟨{ w1r with partners := fupdate w1r.partners a ((w1r.partners a).erase b) },
      ?_, ?_, ?_⟩
    · rw [disconnect]
      simp only [hmem1a, if_true]
      rw [hstep1]
      dsimp only
      rw [hstep2]
    · dsimp only
      rw [fupdate_same, fupdate_other _ _ _ _ hab, h1a]
      intro hmem
      have hnd : ((w.partners a).insert b).Nodup := List.Nodup.insert hna
      rw [List.Nodup.mem_erase_iff hnd] at hmem
      exact hmem.1 rfl
    · dsimp only
      rw [fupdate_other _ _ _ _ hba, fupdate_same, h1b]
      intro hmem
      have hnd : ((w.partners b).insert a).Nodup := List.Nodup.insert hnb
      rw [List.Nodup.mem_erase_iff hnd] at hmem
      exact hmem.1 rfl

/-- Witness for C7 on the concrete world `w0` with a fresh pair of
connectors (output 0 and input 3, not yet connected). -/
theorem connect_disconnect_witness :
    w0.kind 0 = .output ∧ w0.kind 3 = .input ∧
    ∃ w1, connect w0 0 3 = .ok w1 ∧
      (3 ∈ w1.partners 0 ∧ 0 ∈ w1.partners 3) ∧
      (∃ w1x, connect w1 0 3 = .ok w1x ∧
        w1x.partners 0 = w1.partners 0 ∧ w1x.partners 3 = w1.partners 3) ∧
      (∃ w2, disconnect w1 0 3 = .ok w2 ∧
        3 ∉ w2.partners 0 ∧ 0 ∉ w2.partners 3) := by
  refine ⟨by decide, by decide, ?_⟩
  exact connect_disconnect w0 0 3 (by decide) (by decide) (by decide) (by decide)

end OutputConnector

/- ================================================================== -/
/- Python name resolution: constructor keywords, attributes, imports.  -/
/- ================================================================== -/

/-- Keyword parameters accepted by `BaseConnector.__init__(self, name=None)`
(src/egon/connectors.py line 23). -/
def baseConnectorInitParams : List String := ["name"]

/-- Keyword parameters accepted by
`InputConnector.__init__(self, name=None, maxsize=0)`
(src/egon/connectors.py line 91). -/
def inputConnectorInitParams : List String := ["name", "maxsize"]

/-- Keyword parameters accepted by the `OutputConnector` constructor: the
class defines no `__init__` of its own and inherits the one of
`BaseConnector`. -/
def outputConnectorInitParams : List String := baseConnectorInitParams

/-- Keyword arguments passed by `Node.create_input`
(src/egon/nodes.py line 74): `InputConnector(parent_node=self, name=name,
maxsize=maxsize)`. -/
def createInputKwargs : List String := ["parent_node", "name", "maxsize"]

/-- Keyword arguments passed by `Node.create_output`
(src/egon/nodes.py line 87): `OutputConnector(parent_node=self, name=name)`. -/
def createOutputKwargs : List String := ["parent_node", "name"]

/-- Python raises `TypeError` when a call passes a keyword argument that the
callee does not accept. -/
def callRaisesTypeError (accepted passed : List String) : Bool :=
  !(passed.all fun s => accepted.contains s)

/-- Claim C3: `create_input` and `create_output` are claimed to return a new
connector whose `parent_node` is the node and to append it to the node
connector lists; in fact both factory calls pass a `parent_node` keyword
argument that no connector constructor accepts, so every call raises
`TypeError` before any connector is created or appended.  The test suite
(`tests/test_connectors/test_BaseConnector.py`) instantiates
`BaseConnector(parent_node=node)` and expects it back from `parent_node`,
so the constructors, not the factories, are the slip. -/
theorem create_connector_type_error :
    callRaisesTypeError inputConnectorInitParams createInputKwargs = true ∧
    callRaisesTypeError outputConnectorInitParams createOutputKwargs = true ∧
    "parent_node" ∉ inputConnectorInitParams ∧
    "parent_node" ∉ outputConnectorInitParams := by
  refine ⟨rfl, rfl, by decide, by decide⟩

/-- Attribute names defined in the body of class `Node`
(src/egon/nodes.py): methods, properties and instance fields assigned in
its `__init__`. -/
def nodeAttributeNames : List String :=
  ["name", "_engine", "_inputs", "_outputs", "_id",
   "_create_dynamic_connections", "id", "get_num_processes",
   "set_num_processes", "create_input", "create_output", "input_connectors",
   "output_connectors", "upstream_nodes", "downstream_nodes", "validate",
   "class_setup", "setup", "action", "teardown", "class_teardown",
   "_execute_helper", "execute", "is_finished", "is_expecting_data"]

/-- Result of evaluating the first step of `InputConnector.iter_get`:
either the guard raises `MissingConnectionError`, or evaluating the loop
condition `self.parent_node.expecting_data()` resolves the attribute and
the loop is entered, or the attribute lookup raises `AttributeError`. -/
inductive IterGetStart
  | missingConnectionError
  | attributeError (missing : String)
  | loopEntered
deriving DecidableEq, Repr

/-- Embedding of the start of `InputConnector.iter_get`
(src/egon/connectors.py lines 175-200).  A connector without a parent node
raises `MissingConnectionError`; otherwise the loop condition
`while self.parent_node.expecting_data():` looks up the attribute
`expecting_data` on the parent `Node`, raising `AttributeError` when the
class does not define it. -/
def iterGetStart (parent : Option Nat) : IterGetStart :=
  match parent with
  | none => .missingConnectionError
  | some _ =>
    if nodeAttributeNames.contains "expecting_data" then .loopEntered
    else .attributeError "expecting_data"

/-- Claim C4: `iter_get` without a parent node raises
`MissingConnectionError` as claimed, but with a parent node it never yields
anything: the loop condition calls `expecting_data()`, an attribute class
`Node` does not define (the predicate is named `is_expecting_data`), so the
first step raises `AttributeError` instead of iterating. -/
theorem iter_get_start_behaviour :
    iterGetStart none = .missingConnectionError ∧
    (∀ n : Nat, iterGetStart (some n) = .attributeError "expecting_data") ∧
    "expecting_data" ∉ nodeAttributeNames ∧
    "is_expecting_data" ∈ nodeAttributeNames := by
  refine ⟨rfl, fun n => rfl, by decide, by decide⟩

/-- Exception class names defined by `src/egon/exceptions.py`. -/
def exceptionsDefinedNames : List String :=
  ["MissingConnectionError", "NodeValidationError"]

/-- Names requested from `egon.exceptions` by `src/egon/pipelines.py`
(line 7: `from .exceptions import PipelineValidationError`). -/
def pipelinesImportsFromExceptions : List String := ["PipelineValidationError"]

/-- Names requested from `egon.exceptions` by `src/egon/pipeline.py`
(line 3). -/
def pipelineModImportsFromExceptions : List String := ["PipelineValidationError"]

/-- Names requested from `egon.exceptions` by `src/egon/connectors.py`
(line 17). -/
def connectorsImportsFromExceptions : List String := ["MissingConnectionError"]

/-- Names requested from `egon.exceptions` by `src/egon/nodes.py`
(line 10). -/
def nodesImportsFromExceptions : List String := ["NodeValidationError"]

/-- A Python `from .exceptions import ...` statement succeeds iff every
requested name is defined by the exceptions module. -/
def importFromExceptionsOk (requested : List String) : Bool :=
  requested.all fun s => exceptionsDefinedNames.contains s

/-- Loading the package `egon/__init__.py` (lines 3-5) requires importing
`egon.connectors`, `egon.nodes` and `egon.pipelines`, hence every
from-exceptions import of those modules must resolve. -/
def egonPackageLoadOk : Bool :=
  importFromExceptionsOk connectorsImportsFromExceptions
    && importFromExceptionsOk nodesImportsFromExceptions
    && importFromExceptionsOk pipelinesImportsFromExceptions

/-- Claim C9: the exceptions module defines only `MissingConnectionError`
and `NodeValidationError`, while both pipeline modules import
`PipelineValidationError` from it, so loading either pipeline module (and
hence the package `__init__`, which imports `egon.pipelines`) fails with an
`ImportError`; no pipeline operation can raise the documented
pipeline-validation error. -/
theorem pipeline_import_fails :
    "PipelineValidationError" ∉ exceptionsDefinedNames ∧
    importFromExceptionsOk pipelinesImportsFromExceptions = false ∧
    importFromExceptionsOk pipelineModImportsFromExceptions = false ∧
    importFromExceptionsOk connectorsImportsFromExceptions = true ∧
    importFromExceptionsOk nodesImportsFromExceptions = true ∧
    egonPackageLoadOk = false := by
  refine ⟨by decide, rfl, rfl, rfl, rfl, rfl⟩

/- ===================================================== -/
/- Node layer: worker pool engine and liveness predicates -/
/- ===================================================== -/

namespace MultiprocessingEngine

/-- Python exceptions raised by `MultiprocessingEngine.set_num_processes`:
`RuntimeError` for a locked engine and `ValueError` for a non-positive
process count. -/
inductive EngineErr
  | runtimeError
  | valueError
deriving DecidableEq, Repr

/-- State of a `MultiprocessingEngine` (src/egon/multiprocessing.py): the
completion flag of each worker process (the values of the `_states` dict)
and the `_locked` flag. -/
structure Engine where
  states : List Bool
  locked : Bool
deriving DecidableEq, Repr

/-- Embedding of `MultiprocessingEngine.set_num_processes`
(src/egon/multiprocessing.py lines 56-74): rejects a locked engine and a
non-positive count, then re-creates the processes with every completion
flag False. -/
def setNumProcesses (e : Engine) (n : Int) : Except EngineErr Engine :=
  if e.locked then .error .runtimeError
  else if n ≤ 0 then .error .valueError
  else .ok { e with states := List.replicate n.toNat false }

/-- Embedding of `MultiprocessingEngine.__init__` (lines 17-30): the engine
starts unlocked with no processes and calls `set_num_processes`. -/
def engineInit (n : Int) : Except EngineErr Engine :=
  setNumProcesses { states := [], locked := false } n

/-- Embedding of `MultiprocessingEngine.is_finished` (lines 76-79):
`all(self._states.values())`. -/
def isFinished (e : Engine) : Bool := e.states.all id

end MultiprocessingEngine

namespace Node

/-- Embedding of `Node.is_finished` (src/egon/nodes.py lines 187-190) in
the world model: `self._engine.is_finished()`. -/
def isFinished (w : World) (n : Nat) : Bool := (w.nodeStates n).all id

/-- Python `AttributeError`, raised by `is_expecting_data` when a partner
output connector has no parent node (`None.is_finished()`). -/
inductive PyAttrErr
  | attributeError
deriving DecidableEq, Repr

/-- Embedding of the inner loop of `Node.is_expecting_data`
(src/egon/nodes.py lines 199-203): for each partner output connector of an
input, return True as soon as `output_connector.parent_node.is_finished()`
is false; a partner without a parent node makes the attribute access on
`None` raise. -/
def upstreamCheck (w : World) : List Nat → Except PyAttrErr Bool
  | [] => .ok false
  | p :: ps =>
    match w.parent p with
    | none => .error .attributeError
    | some u => if isFinished w u then upstreamCheck w ps else .ok true

/-- Embedding of the outer loop of `Node.is_expecting_data` over the input
connectors of the node. -/
def expectingLoop (w : World) : List Nat → Except PyAttrErr Bool
  | [] => .ok false
  | i :: rest =>
    match upstreamCheck w (w.partners i) with
    | .error e => .error e
    | .ok true => .ok true
    | .ok false => expectingLoop w rest

/-- Embedding of `Node.is_expecting_data` (src/egon/nodes.py lines
192-211): true when some upstream node is not finished, otherwise true
when some input queue is non-empty, otherwise false. -/
def isExpectingData (w : World) (n : Nat) : Except PyAttrErr Bool :=
  match expectingLoop w (w.nodeInputs n) with
  | .error e => .error e
  | .ok true => .ok true
  | .ok false => .ok ((w.nodeInputs n).any fun i => !(w.queue i).isEmpty)

theorem upstreamCheck_true (w : World) (ps : List Nat)
    (hyg : ∀ p ∈ ps, (w.parent p).isSome)
    (hex : ∃ p ∈ ps, ∃ u, w.parent p = some u ∧ isFinished w u = false) :
    upstreamCheck w ps = .ok true := by
  induction ps with
  | nil => obtain ⟨p, hp, _⟩ := hex; cases hp
  | cons p0 rest ih =>
    obtain ⟨u0, hu0⟩ := Option.isSome_iff_exists.mp (hyg p0 (List.mem_cons_self p0 rest))
    rw [upstreamCheck, hu0]
    by_cases hf : isFinished w u0
    · simp only [hf, if_true]
      refine ih (fun p hp => hyg p (List.mem_cons_of_mem p0 hp)) ?_
      obtain ⟨p, hp, u, hu, hfu⟩ := hex
      rcases List.mem_cons.mp hp with he | hm
      · subst he
        rw [hu0] at hu
        cases hu
        rw [hf] at hfu
        cases hfu
      · exact ⟨p, hm, u, hu, hfu⟩
    · simp [hf]

theorem upstreamCheck_ok (w : World) (ps : List Nat)
    (hyg : ∀ p ∈ ps, (w.parent p).isSome) :
    ∃ b, upstreamCheck w ps = .ok b := by
  induction ps with
  | nil => exact ⟨false, rfl⟩
  | cons q qs ihq =>
    obtain ⟨u0, hu0⟩ := Option.isSome_iff_exists.mp (hyg q (List.mem_cons_self q qs))
    rw [upstreamCheck, hu0]
    by_cases hf : isFinished w u0
    · simp only [hf, if_true]
      exact ihq (fun p hp => hyg p (List.mem_cons_of_mem q hp))
    · exact ⟨true, by simp [hf]⟩

theorem expectingLoop_true (w : World) (inputs : List Nat)
    (hyg : ∀ i ∈ inputs, ∀ p ∈ w.partners i, (w.parent p).isSome)
    (hex : ∃ i ∈ inputs, ∃ p ∈ w.partners i, ∃ u, w.parent p = some u ∧
      isFinished w u = false) :
    expectingLoop w inputs = .ok true := by
  induction inputs with
  | nil => obtain ⟨i, hi, _⟩ := hex; cases hi
  | cons i0 rest ih =>
    rw [expectingLoop]
    obtain ⟨i, hi, p, hp, u, hu, hfu⟩ := hex
    rcases List.mem_cons.mp hi with he | hm
    · rw [upstreamCheck_true w (w.partners i0)
        (hyg i0 (List.mem_cons_self i0 rest)) ⟨p, he ▸ hp, u, hu, hfu⟩]
    · obtain ⟨b, hb⟩ := upstreamCheck_ok w (w.partners i0)
        (hyg i0 (List.mem_cons_self i0 rest))
      rw [hb]
      cases b
      · exact ih (fun i2 hi2 => hyg i2 (List.mem_cons_of_mem i0 hi2))
          ⟨i, hm, p, hp, u, hu, hfu⟩
      · rfl

theorem replicate_all_false (k : Nat) (hk : k ≠ 0) :
    (List.replicate k false).all id = false := by
  cases k with
  | zero => cases hk rfl
  | succ m => simp [List.replicate]

/-- Claim C10: an engine that was constructed (or resized via
`set_num_processes`) and never started reports `is_finished()` false,
because every completion flag starts out False and there is at least one
worker; consequently a node whose upstream node was never started reports
`is_expecting_data()` true even when all of its input queues are empty. -/
theorem never_started_upstream_expecting (np : Int) (e : MultiprocessingEngine.Engine)
    (w : World) (d i o u : Nat)
    (heng : MultiprocessingEngine.engineInit np = .ok e)
    (hstates : w.nodeStates u = e.states)
    (hi : i ∈ w.nodeInputs d) (ho : o ∈ w.partners i)
    (hpar : w.parent o = some u)
    (hyg : ∀ i2 ∈ w.nodeInputs d, ∀ p ∈ w.partners i2, (w.parent p).isSome)
    (hempty : ∀ i2 ∈ w.nodeInputs d, w.queue i2 = []) :
    MultiprocessingEngine.isFinished e = false ∧
    isFinished w u = false ∧
    isExpectingData w d = .ok true := by
  have hfin : MultiprocessingEngine.isFinished e = false := by
    rw [MultiprocessingEngine.engineInit, MultiprocessingEngine.setNumProcesses] at heng
    simp only [Bool.false_eq_true, if_false] at heng
    by_cases hnp : np ≤ 0
    · simp [hnp] at heng
    · simp only [hnp, if_false, Except.ok.injEq] at heng
      rw [MultiprocessingEngine.isFinished, ← heng]
      exact replicate_all_false np.toNat (by omega)
  have hnode : isFinished w u = false := by
    rw [isFinished, hstates]
    exact hfin
  refine ⟨hfin, hnode, ?_⟩
  rw [isExpectingData, expectingLoop_true w (w.nodeInputs d) hyg
    ⟨i, hi, o, ho, u, hpar, hnode⟩]

/-- Witness for C10 on the concrete world `w0`: node 0 (owner of output 0)
has a fresh one-process engine that was never started, so node 1 is still
expecting data although both of its input queues are empty. -/
theorem never_started_upstream_expecting_witness :
    MultiprocessingEngine.engineInit 1 = .ok ⟨[false], false⟩ ∧
    w0.nodeStates 0 = [false] ∧
    (MultiprocessingEngine.isFinished ⟨[false], false⟩ = false ∧
      isFinished w0 0 = false ∧
      isExpectingData w0 1 = .ok true) := by
  refine ⟨rfl, rfl, ?_⟩
  exact never_started_upstream_expecting 1 ⟨[false], false⟩ w0 1 1 0 0
    rfl rfl (by decide) (by decide) rfl
    (by intro i2 hi2 p hp; fin_cases hi2 <;> fin_cases hp <;> decide)
    (by intro i2 hi2; fin_cases hi2 <;> rfl)

/-- Python exceptions raised by `Node.validate`: the single class
`NodeValidationError`, distinguished here by its message. -/
inductive NodeValidationErr
  | noConnectors
  | unconnectedInput (name : String)
  | unconnectedOutput (name : String)
deriving DecidableEq, Repr

/-- Embedding of `Node.validate` (src/egon/nodes.py lines 111-127): a node
with no connectors at all fails, then the first unconnected input fails,
then the first unconnected output fails. -/
def validate (w : World) (n : Nat) : Except NodeValidationErr Unit :=
  if (w.nodeInputs n).isEmpty && (w.nodeOutputs n).isEmpty then
    .error .noConnectors
  else
    match (w.nodeInputs n).find? (fun c => (w.partners c).isEmpty) with
    | some c => .error (.unconnectedInput (w.connName c))
    | none =>
      match (w.nodeOutputs n).find? (fun c => (w.partners c).isEmpty) with
      | some c => .error (.unconnectedOutput (w.connName c))
      | none => .ok ()

end Node

/- ================================================== -/
/- Pipeline layer: graph validation (src/egon/pipelines.py) -/
/- ================================================== -/

namespace Pipeline

/-- Abstract view of a `Pipeline`: the registered `_nodes` list and the
adjacency oracles `downstream_nodes()` and `upstream_nodes()` of each node.
The Python dictionaries `visited` and `recursive_stack` are modelled as
total functions on node identifiers; this is faithful for closed graphs
(every edge target registered), which is a hypothesis of every theorem
below — on a non-closed graph the Python code raises `KeyError` instead. -/
structure Graph where
  nodes : List Nat
  down : Nat → List Nat
  up : Nat → List Nat

/-- Directed edge relation generated by `downstream_nodes`. -/
def E (g : Graph) (a b : Nat) : Prop := b ∈ g.down a

/-- Undirected step: neighbour in either direction. -/
def ustep (g : Graph) (a b : Nat) : Prop := b ∈ g.down a ∨ b ∈ g.up a

/-- Undirected reachability. -/
def UReach (g : Graph) : Nat → Nat → Prop := Relation.ReflTransGen (ustep g)

/-- Existence of a directed cycle through a registered node. -/
def hasCycle (g : Graph) : Prop := ∃ c ∈ g.nodes, Relation.TransGen (E g) c c

/-- Every edge of a registered node leads to a registered node. -/
def Closed (g : Graph) : Prop :=
  ∀ v ∈ g.nodes, (∀ w ∈ g.down v, w ∈ g.nodes) ∧ (∀ w ∈ g.up v, w ∈ g.nodes)

/-- The up and down adjacency oracles describe the same edge set, as they
do when the partner relation of the connectors is symmetric. -/
def UndirSym (g : Graph) : Prop := ∀ a b, a ∈ g.down b ↔ b ∈ g.up a

theorem ustep_symm {g : Graph} (hs : UndirSym g) {a b : Nat} (h : ustep g a b) :
    ustep g b a := by
  rcases h with h | h
  · exact Or.inr ((hs b a).mp h)
  · exact Or.inl ((hs a b).mpr h)

theorem ureach_symm {g : Graph} (hs : UndirSym g) {a b : Nat} (h : UReach g a b) :
    UReach g b a := by
  induction h with
  | refl => exact Relation.ReflTransGen.refl
  | tail hstep hlast ih =>
    exact Relation.ReflTransGen.head (ustep_symm hs hlast) ih

/-- Number of nodes not yet marked by a Boolean state function; the
termination measure of both depth-first searches. -/
def unmarked (g : Graph) (s : Nat → Bool) : Nat :=
  g.nodes.dedup.countP (fun v => !s v)

theorem countP_le_of (l : List Nat) (p q : Nat → Bool)
    (h : ∀ u ∈ l, q u = true → p u = true) : l.countP q ≤ l.countP p := by
  induction l with
  | nil => simp
  | cons a t ih =>
    rw [List.countP_cons, List.countP_cons]
    have ht := ih (fun u hu => h u (List.mem_cons_of_mem a hu))
    by_cases hq : q a = true
    · have hp := h a (List.mem_cons_self a t) hq
      simp [hq, hp]
      omega
    · simp only [Bool.not_eq_true] at hq
      simp [hq]
      omega

theorem countP_lt_of (l : List Nat) (p q : Nat → Bool)
    (h : ∀ u ∈ l, q u = true → p u = true) (v : Nat) (hv : v ∈ l)
    (hp : p v = true) (hq : q v = false) : l.countP q < l.countP p := by
  induction l with
  | nil => cases hv
  | cons a t ih =>
    rw [List.countP_cons, List.countP_cons]
    have hle := countP_le_of t p q (fun u hu => h u (List.mem_cons_of_mem a hu))
    rcases List.mem_cons.mp hv with he | hm
    · subst he
      simp [hp, hq]
      omega
    · have hlt := ih (fun u hu => h u (List.mem_cons_of_mem a hu)) hm
      by_cases hqa : q a = true
      · have hpa := h a (List.mem_cons_self a t) hqa
        simp [hqa, hpa]
        omega
      · simp only [Bool.not_eq_true] at hqa
        simp [hqa]
        omega

theorem unmarked_mark_lt (g : Graph) (s : Nat → Bool) (v : Nat)
    (hv : v ∈ g.nodes) (hs : s v = false) :
    unmarked g (fupdate s v true) < unmarked g s := by
  refine countP_lt_of _ _ _ ?_ v (List.mem_dedup.mpr hv) ?_ ?_
  · intro u hu hq
    simp only [Bool.not_eq_true'] at hq ⊢
    by_cases huv : u = v
    · subst huv; exact hs
    · rw [fupdate_other _ _ _ _ huv] at hq; exact hq
  · simp [hs]
  · simp [fupdate]

theorem unmarked_le_of_mono (g : Graph) (s s2 : Nat → Bool)
    (h : ∀ u, s u = true → s2 u = true) : unmarked g s2 ≤ unmarked g s := by
  refine countP_le_of _ _ _ ?_
  intro u _ hq
  simp only [Bool.not_eq_true'] at hq ⊢
  by_cases h2 : s u = true
  · have := h u h2
    rw [this] at hq
    cases hq
  · simpa using h2

theorem unmarked_lt_of_fuel (g : Graph) (s : Nat → Bool) (v : Nat)
    (hv : v ∈ g.nodes) (hs : s v = false) (fuel : Nat)
    (hf : unmarked g s < fuel + 1) : unmarked g (fupdate s v true) < fuel :=
  Nat.lt_of_lt_of_le (unmarked_mark_lt g s v hv hs) (by omega)

mutual

/-- Embedding of `Pipeline._is_cyclic_helper` (src/egon/pipelines.py lines
55-83) with an explicit recursion budget.  The function marks the node in
`visited` and `recursive_stack`, examines its downstream nodes, and
restores its own stack entry before a normal (False) return; the result is
the return value together with the mutated `visited` and `recursive_stack`
dictionaries.  The budget only guards Lean totality: on closed graphs the
budget used by `_is_cyclic` is proved never to be exhausted. -/
def cyclicHelper (g : Graph) (fuel : Nat) (v : Nat) (vis stk : Nat → Bool) :
    Option (Bool × (Nat → Bool) × (Nat → Bool)) :=
  match fuel with
  | 0 => none
  | fuel + 1 =>
    match cyclicLoop g fuel (g.down v) (fupdate vis v true) (fupdate stk v true) with
    | none => none
    | some (true, vis2, stk2) => some (true, vis2, stk2)
    | some (false, vis2, stk2) => some (false, vis2, fupdate stk2 v false)
termination_by (fuel, 0)

/-- Embedding of the loop `for downstream in node.downstream_nodes():` of
`_is_cyclic_helper`: recurse into unvisited downstream nodes, report a
cycle when a downstream node is on the recursion stack. -/
def cyclicLoop (g : Graph) (fuel : Nat) (ws : List Nat) (vis stk : Nat → Bool) :
    Option (Bool × (Nat → Bool) × (Nat → Bool)) :=
  match ws with
  | [] => some (false, vis, stk)
  | wn :: rest =>
    if vis wn = false then
      match cyclicHelper g fuel wn vis stk with
      | none => none
      | some (true, vis2, stk2) => some (true, vis2, stk2)
      | some (false, vis2, stk2) => cyclicLoop g fuel rest vis2 stk2
    else if stk wn then some (true, vis, stk)
    else cyclicLoop g fuel rest vis stk
termination_by (fuel, ws.length + 1)

end

/-- Embedding of the loop `for node in self._nodes:` of `Pipeline._is_cyclic`
(src/egon/pipelines.py lines 85-97). -/
def cyclicTop (g : Graph) (fuel : Nat) (ws : List Nat) (vis stk : Nat → Bool) :
    Option Bool :=
  match ws with
  | [] => some false
  | v :: rest =>
    if vis v = false then
      match cyclicHelper g fuel v vis stk with
      | none => none
      | some (true, _, _) => some true
      | some (false, vis2, stk2) => cyclicTop g fuel rest vis2 stk2
    else cyclicTop g fuel rest vis stk

/-- Embedding of `Pipeline._is_cyclic`: both bookkeeping dictionaries start
all-False over the registered nodes. -/
def isCyclic (g : Graph) : Option Bool :=
  cyclicTop g (g.nodes.length + 1) g.nodes (fun _ => false) (fun _ => false)

/-- Representation invariant of the two DFS dictionaries: every node on the
recursion stack has been visited. -/
def SubVis (vis stk : Nat → Bool) : Prop := ∀ u, stk u = true → vis u = true

theorem cyclic_mono (g : Graph) : ∀ fuel : Nat,
    (∀ v vis stk b vis2 stk2, vis v = false →
      cyclicHelper g fuel v vis stk = some (b, vis2, stk2) →
      (∀ u, vis u = true → vis2 u = true) ∧ (∀ u, vis u = true → stk2 u = stk u)) ∧
    (∀ ws vis stk b vis2 stk2,
      cyclicLoop g fuel ws vis stk = some (b, vis2, stk2) →
      (∀ u, vis u = true → vis2 u = true) ∧ (∀ u, vis u = true → stk2 u = stk u)) := by
  intro fuel
  induction fuel with
  | zero =>
    constructor
    · intro v vis stk b vis2 stk2 hv hres
      rw [cyclicHelper] at hres
      cases hres
    · intro ws
      induction ws with
      | nil =>
        intro vis stk b vis2 stk2 hres
        rw [cyclicLoop] at hres
        cases hres
        exact ⟨fun u h => h, fun u h => rfl⟩
      | cons wn rest ih =>
        intro vis stk b vis2 stk2 hres
        rw [cyclicLoop] at hres
        by_cases hw : vis wn = false
        · rw [if_pos hw] at hres
          rw [cyclicHelper] at hres
          cases hres
        · rw [if_neg hw] at hres
          by_cases hstk : stk wn
          · rw [if_pos hstk] at hres
            cases hres
            exact ⟨fun u h => h, fun u h => rfl⟩
          · rw [if_neg hstk] at hres
            exact ih vis stk b vis2 stk2 hres
  | succ n ihn =>
    have hH : ∀ v vis stk b vis2 stk2, vis v = false →
        cyclicHelper g (n + 1) v vis stk = some (b, vis2, stk2) →
        (∀ u, vis u = true → vis2 u = true) ∧ (∀ u, vis u = true → stk2 u = stk u) := by
      intro v vis stk b vis2 stk2 hv hres
      rw [cyclicHelper] at hres
      cases hloop : cyclicLoop g n (g.down v) (fupdate vis v true) (fupdate stk v true) with
      | none => rw [hloop] at hres; cases hres
      | some r =>
        obtain ⟨b2, visL, stkL⟩ := r
        rw [hloop] at hres
        have hmono := (ihn.2) (g.down v) (fupdate vis v true) (fupdate stk v true)
          b2 visL stkL hloop
        have hvis : ∀ u, vis u = true → visL u = true := by
          intro u hu
          refine hmono.1 u ?_
          have huv : u ≠ v := fun he => by rw [he, hv] at hu; cases hu
          rw [fupdate_other _ _ _ _ huv]; exact hu
        have hstk : ∀ u, vis u = true → stkL u = stk u := by
          intro u hu
          have huv : u ≠ v := fun he => by rw [he, hv] at hu; cases hu
          have := hmono.2 u (by rw [fupdate_other _ _ _ _ huv]; exact hu)
          rw [this, fupdate_other _ _ _ _ huv]
        cases b2
        · simp only [Except.ok.injEq] at hres
          cases hres
          refine ⟨hvis, fun u hu => ?_⟩
          have huv : u ≠ v := fun he => by rw [he, hv] at hu; cases hu
          rw [fupdate_other _ _ _ _ huv]
          exact hstk u hu
        · cases hres
          exact ⟨hvis, hstk⟩
    refine ⟨hH, ?_⟩
    intro ws
    induction ws with
    | nil =>
      intro vis stk b vis2 stk2 hres
      rw [cyclicLoop] at hres
      cases hres
      exact ⟨fun u h => h, fun u h => rfl⟩
    | cons wn rest ih =>
      intro vis stk b vis2 stk2 hres
      rw [cyclicLoop] at hres
      by_cases hw : vis wn = false
      · rw [if_pos hw] at hres
        cases hhelp : cyclicHelper g (n + 1) wn vis stk with
        | none => rw [hhelp] at hres; cases hres
        | some r =>
          obtain ⟨b2, visH, stkH⟩ := r
          rw [hhelp] at hres
          have hmonoH := hH wn vis stk b2 visH stkH hw hhelp
          cases b2
          · have hmonoL := ih visH stkH b vis2 stk2 hres
            exact ⟨fun u hu => hmonoL.1 u (hmonoH.1 u hu),
              fun u hu => by rw [hmonoL.2 u (hmonoH.1 u hu), hmonoH.2 u hu]⟩
          · cases hres
            exact hmonoH
      · rw [if_neg hw] at hres
        by_cases hstk : stk wn
        · rw [if_pos hstk] at hres
          cases hres
          exact ⟨fun u h => h, fun u h => rfl⟩
        · rw [if_neg hstk] at hres
          exact ih vis stk b vis2 stk2 hres

theorem cyclic_stk_false (g : Graph) : ∀ fuel : Nat,
    (∀ v vis stk vis2 stk2, SubVis vis stk → vis v = false →
      cyclicHelper g fuel v vis stk = some (false, vis2, stk2) →
      ∀ u, stk2 u = stk u) ∧
    (∀ ws vis stk vis2 stk2, SubVis vis stk →
      cyclicLoop g fuel ws vis stk = some (false, vis2, stk2) →
      ∀ u, stk2 u = stk u) := by
  intro fuel
  induction fuel with
  | zero =>
    constructor
    · intro v vis stk vis2 stk2 hsub hv hres
      rw [cyclicHelper] at hres
      cases hres
    · intro ws
      induction ws with
      | nil =>
        intro vis stk vis2 stk2 hsub hres
        rw [cyclicLoop] at hres
        cases hres
        exact fun u => rfl
      | cons wn rest ih =>
        intro vis stk vis2 stk2 hsub hres
        rw [cyclicLoop] at hres
        by_cases hw : vis wn = false
        · rw [if_pos hw] at hres
          rw [cyclicHelper] at hres
          cases hres
        · rw [if_neg hw] at hres
          by_cases hstk : stk wn
          · rw [if_pos hstk] at hres
            cases hres
          · rw [if_neg hstk] at hres
            exact ih vis stk vis2 stk2 hsub hres
  | succ n ihn =>
    have hH : ∀ v vis stk vis2 stk2, SubVis vis stk → vis v = false →
        cyclicHelper g (n + 1) v vis stk = some (false, vis2, stk2) →
        ∀ u, stk2 u = stk u := by
      intro v vis stk vis2 stk2 hsub hv hres
      rw [cyclicHelper] at hres
      cases hloop : cyclicLoop g n (g.down v) (fupdate vis v true) (fupdate stk v true) with
      | none => rw [hloop] at hres; cases hres
      | some r =>
        obtain ⟨b2, visL, stkL⟩ := r
        rw [hloop] at hres
        cases b2
        · cases hres
          have hsub1 : SubVis (fupdate vis v true) (fupdate stk v true) := by
            intro u hu
            by_cases huv : u = v
            · subst huv; exact fupdate_same _ _ _
            · rw [fupdate_other _ _ _ _ huv] at hu
              rw [fupdate_other _ _ _ _ huv]
              exact hsub u hu
          have hfix := ihn.2 (g.down v) _ _ _ _ hsub1 hloop
          intro u
          by_cases huv : u = v
          · subst huv
            rw [fupdate_same]
            have : stk u = false := by
              by_cases h : stk u = true
              · rw [hsub u h] at hv; cases hv
              · simpa using h
            rw [this]
          · rw [fupdate_other _ _ _ _ huv, hfix u, fupdate_other _ _ _ _ huv]
        · cases hres
    refine ⟨hH, ?_⟩
    intro ws
    induction ws with
    | nil =>
      intro vis stk vis2 stk2 hsub hres
      rw [cyclicLoop] at hres
      cases hres
      exact fun u => rfl
    | cons wn rest ih =>
      intro vis stk vis2 stk2 hsub hres
      rw [cyclicLoop] at hres
      by_cases hw : vis wn = false
      · rw [if_pos hw] at hres
        cases hhelp : cyclicHelper g (n + 1) wn vis stk with
        | none => rw [hhelp] at hres; cases hres
        | some r =>
          obtain ⟨b2, visH, stkH⟩ := r
          rw [hhelp] at hres
          cases b2
          · have hfixH := hH wn vis stk visH stkH hsub hw hhelp
            have hsub2 : SubVis visH stkH := by
              intro u hu
              rw [hfixH u] at hu
              exact (cyclic_mono g (n + 1)).1 wn vis stk false visH stkH hw hhelp
                |>.1 u (hsub u hu)
            have hfixL := ih visH stkH vis2 stk2 hsub2 hres
            intro u
            rw [hfixL u, hfixH u]
          · cases hres
      · rw [if_neg hw] at hres
        by_cases hstk : stk wn
        · rw [if_pos hstk] at hres
          cases hres
        · rw [if_neg hstk] at hres
          exact ih vis stk vis2 stk2 hsub hres

theorem cyclic_some (g : Graph) (hcl : Closed g) : ∀ fuel : Nat,
    (∀ v vis stk, v ∈ g.nodes → vis v = false → unmarked g vis < fuel →
      ∃ r, cyclicHelper g fuel v vis stk = some r) ∧
    (∀ ws vis stk, (∀ w ∈ ws, w ∈ g.nodes) → unmarked g vis < fuel →
      ∃ r, cyclicLoop g fuel ws vis stk = some r) := by
  intro fuel
  induction fuel with
  | zero =>
    exact ⟨fun v vis stk _ _ h => absurd h (by omega),
      fun ws vis stk _ h => absurd h (by omega)⟩
  | succ n ihn =>
    have hH : ∀ v vis stk, v ∈ g.nodes → vis v = false → unmarked g vis < n + 1 →
        ∃ r, cyclicHelper g (n + 1) v vis stk = some r := by
      intro v vis stk hv hvf hfuel
      rw [cyclicHelper]
      obtain ⟨r, hr⟩ := ihn.2 (g.down v) (fupdate vis v true) (fupdate stk v true)
        (fun w hw => (hcl v hv).1 w hw)
        (unmarked_lt_of_fuel g vis v hv hvf n hfuel)
      rw [hr]
      obtain ⟨b2, visL, stkL⟩ := r
      cases b2
      · exact ⟨_, rfl⟩
      · exact ⟨_, rfl⟩
    refine ⟨hH, ?_⟩
    intro ws
    induction ws with
    | nil =>
      intro vis stk hws hfuel
      exact ⟨_, by rw [cyclicLoop]⟩
    | cons wn rest ih =>
      intro vis stk hws hfuel
      rw [cyclicLoop]
      by_cases hw : vis wn = false
      · rw [if_pos hw]
        obtain ⟨r, hr⟩ := hH wn vis stk (hws wn (List.mem_cons_self wn rest)) hw hfuel
        rw [hr]
        obtain ⟨b2, visH, stkH⟩ := r
        cases b2
        · refine ih visH stkH (fun w hw2 => hws w (List.mem_cons_of_mem wn hw2)) ?_
          have hmono := (cyclic_mono g (n + 1)).1 wn vis stk false visH stkH hw hr
          exact Nat.lt_of_le_of_lt (unmarked_le_of_mono g vis visH hmono.1) hfuel
        · exact ⟨_, rfl⟩
      · rw [if_neg hw]
        by_cases hstk : stk wn
        · rw [if_pos hstk]
          exact ⟨_, rfl⟩
        · rw [if_neg hstk]
          exact ih vis stk (fun w hw2 => hws w (List.mem_cons_of_mem wn hw2)) hfuel

theorem cyclicTop_some (g : Graph) (hcl : Closed g) (fuel : Nat) :
    ∀ ws vis stk, (∀ w ∈ ws, w ∈ g.nodes) → unmarked g vis < fuel →
      ∃ b, cyclicTop g fuel ws vis stk = some b := by
  intro ws
  induction ws with
  | nil => exact fun vis stk _ _ => ⟨false, rfl⟩
  | cons v rest ih =>
    intro vis stk hws hfuel
    rw [cyclicTop]
    by_cases hv : vis v = false
    · rw [if_pos hv]
      obtain ⟨r, hr⟩ := (cyclic_some g hcl fuel).1 v vis stk
        (hws v (List.mem_cons_self v rest)) hv hfuel
      rw [hr]
      obtain ⟨b2, visH, stkH⟩ := r
      cases b2
      · refine ih visH stkH (fun w hw => hws w (List.mem_cons_of_mem v hw)) ?_
        rcases fuel with _ | n
        · omega
        · have hmono := (cyclic_mono g (n + 1)).1 v vis stk false visH stkH hv hr
          exact Nat.lt_of_le_of_lt (unmarked_le_of_mono g vis visH hmono.1) hfuel
      · exact ⟨true, rfl⟩
    · rw [if_neg hv]
      exact ih vis stk (fun w hw => hws w (List.mem_cons_of_mem v hw)) hfuel

theorem unmarked_lt_top (g : Graph) :
    unmarked g (fun _ => false) < g.nodes.length + 1 := by
  have h1 : unmarked g (fun _ => false) ≤ g.nodes.dedup.length :=
    List.countP_le_length _
  have h2 : g.nodes.dedup.length ≤ g.nodes.length :=
    List.Sublist.length_le (List.dedup_sublist g.nodes)
  omega

theorem isCyclic_some (g : Graph) (hcl : Closed g) : ∃ b, isCyclic g = some b :=
  cyclicTop_some g hcl (g.nodes.length + 1) g.nodes (fun _ => false) (fun _ => false)
    (fun w hw => hw) (unmarked_lt_top g)

/-- Invariant of the recursion stack during the cyclic DFS: the nodes with
a True stack entry are exactly the elements of a directed path `L` of
registered nodes. -/
def GreyChain (g : Graph) (stk : Nat → Bool) (L : List Nat) : Prop :=
  (∀ u, stk u = true ↔ u ∈ L) ∧ List.Chain' (E g) L ∧ (∀ u ∈ L, u ∈ g.nodes)

theorem chain_last_reach {R : Nat → Nat → Prop} :
    ∀ (M : List Nat) (l : Nat), List.Chain' R M → M.getLast? = some l →
      ∀ u ∈ M, Relation.ReflTransGen R u l := by
  intro M
  induction M with
  | nil => intro l _ _ u hu; cases hu
  | cons a t ih =>
    intro l hchain hlast u hu
    cases t with
    | nil =>
      have : l = a := by
        simp only [List.getLast?_singleton, Option.some.injEq] at hlast
        exact hlast.symm
      subst this
      rcases List.mem_singleton.mp hu with rfl
      exact Relation.ReflTransGen.refl
    | cons b t2 =>
      rw [List.chain'_cons] at hchain
      rw [List.getLast?_cons_cons] at hlast
      rcases List.mem_cons.mp hu with he | hm
      · subst he
        exact Relation.ReflTransGen.head hchain.1
          (ih l hchain.2 hlast b (List.mem_cons_self b t2))
      · exact ih l hchain.2 hlast u hm

theorem greyChain_push (g : Graph) (stk : Nat → Bool) (L : List Nat) (v : Nat)
    (hgc : GreyChain g stk L) (hv : stk v = false) (hvn : v ∈ g.nodes)
    (hlast : ∀ l, L.getLast? = some l → E g l v) :
    GreyChain g (fupdate stk v true) (L ++ [v]) := by
  obtain ⟨hiff, hchain, hnodes⟩ := hgc
  refine ⟨?_, ?_, ?_⟩
  · intro u
    by_cases huv : u = v
    · subst huv
      simp [fupdate]
    · rw [fupdate_other _ _ _ _ huv, List.mem_append, List.mem_singleton]
      rw [hiff u]
      exact ⟨fun h => Or.inl h, fun h => h.elim id (fun he => absurd he huv)⟩
  · rw [List.chain'_append]
    refine ⟨hchain, List.chain'_singleton v, ?_⟩
    intro x hx y hy
    rw [List.head?_cons, Option.mem_def, Option.some.injEq] at hy
    subst hy
    exact hlast x hx
  · intro u hu
    rcases List.mem_append.mp hu with h | h
    · exact hnodes u h
    · rcases List.mem_singleton.mp h with rfl
      exact hvn

theorem mem_of_getLast?_eq {M : List Nat} {a : Nat} (h : M.getLast? = some a) :
    a ∈ M := by
  obtain ⟨hne, heq⟩ := List.mem_getLast?_eq_getLast (by rw [Option.mem_def]; exact h)
  rw [heq]
  exact List.getLast_mem hne

theorem cyclic_true_cycle (g : Graph) (hcl : Closed g) : ∀ fuel : Nat,
    (∀ v vis stk L vis2 stk2, SubVis vis stk → vis v = false → v ∈ g.nodes →
      GreyChain g stk L → (∀ l, L.getLast? = some l → E g l v) →
      cyclicHelper g fuel v vis stk = some (true, vis2, stk2) → hasCycle g) ∧
    (∀ ws vis stk M vtop vis2 stk2, SubVis vis stk → GreyChain g stk M →
      M.getLast? = some vtop → (∀ w ∈ ws, w ∈ g.down vtop) →
      cyclicLoop g fuel ws vis stk = some (true, vis2, stk2) → hasCycle g) := by
  intro fuel
  induction fuel with
  | zero =>
    constructor
    · intro v vis stk L vis2 stk2 _ _ _ _ _ hres
      rw [cyclicHelper] at hres
      cases hres
    · intro ws
      induction ws with
      | nil =>
        intro vis stk M vtop vis2 stk2 _ _ _ _ hres
        rw [cyclicLoop] at hres
        cases hres
      | cons wn rest ih =>
        intro vis stk M vtop vis2 stk2 hsub hgc hlast hws hres
        rw [cyclicLoop] at hres
        by_cases hw : vis wn = false
        · rw [if_pos hw] at hres
          rw [cyclicHelper] at hres
          cases hres
        · rw [if_neg hw] at hres
          by_cases hstk : stk wn
          · have hwm : wn ∈ M := (hgc.1 wn).mp hstk
            have hreach : Relation.ReflTransGen (E g) wn vtop :=
              chain_last_reach M vtop hgc.2.1 hlast wn hwm
            have hedge : E g vtop wn := hws wn (List.mem_cons_self wn rest)
            exact ⟨wn, hgc.2.2 wn hwm, Relation.TransGen.tail' hreach hedge⟩
          · rw [if_neg hstk] at hres
            exact ih vis stk M vtop vis2 stk2 hsub hgc hlast
              (fun w hw2 => hws w (List.mem_cons_of_mem wn hw2)) hres
  | succ n ihn =>
    have hH : ∀ v vis stk L vis2 stk2, SubVis vis stk → vis v = false → v ∈ g.nodes →
        GreyChain g stk L → (∀ l, L.getLast? = some l → E g l v) →
        cyclicHelper g (n + 1) v vis stk = some (true, vis2, stk2) → hasCycle g := by
      intro v vis stk L vis2 stk2 hsub hv hvn hgc hlast hres
      rw [cyclicHelper] at hres
      cases hloop : cyclicLoop g n (g.down v) (fupdate vis v true) (fupdate stk v true) with
      | none => rw [hloop] at hres; cases hres
      | some r =>
        obtain ⟨b2, visL, stkL⟩ := r
        rw [hloop] at hres
        cases b2
        · cases hres
        · have hvstk : stk v = false := by
            by_cases h : stk v = true
            · rw [hsub v h] at hv; cases hv
            · simpa using h
          have hsub1 : SubVis (fupdate vis v true) (fupdate stk v true) := by
            intro u hu
            by_cases huv : u = v
            · subst huv; exact fupdate_same _ _ _
            · rw [fupdate_other _ _ _ _ huv] at hu
              rw [fupdate_other _ _ _ _ huv]
              exact hsub u hu
          refine ihn.2 (g.down v) _ _ (L ++ [v]) v visL stkL hsub1
            (greyChain_push g stk L v hgc hvstk hvn hlast)
            (List.getLast?_concat L) (fun w hw => hw) hloop
    refine ⟨hH, ?_⟩
    intro ws
    induction ws with
    | nil =>
      intro vis stk M vtop vis2 stk2 _ _ _ _ hres
      rw [cyclicLoop] at hres
      cases hres
    | cons wn rest ih =>
      intro vis stk M vtop vis2 stk2 hsub hgc hlast hws hres
      rw [cyclicLoop] at hres
      by_cases hw : vis wn = false
      · rw [if_pos hw] at hres
        cases hhelp : cyclicHelper g (n + 1) wn vis stk with
        | none => rw [hhelp] at hres; cases hres
        | some r =>
          obtain ⟨b2, visH, stkH⟩ := r
          rw [hhelp] at hres
          cases b2
          · have hfix := (cyclic_stk_false g (n + 1)).1 wn vis stk visH stkH hsub hw hhelp
            have hmono := (cyclic_mono g (n + 1)).1 wn vis stk false visH stkH hw hhelp
            have hsub2 : SubVis visH stkH := by
              intro u hu
              rw [hfix u] at hu
              exact hmono.1 u (hsub u hu)
            have hgc2 : GreyChain g stkH M := by
              refine ⟨fun u => by rw [hfix u]; exact hgc.1 u, hgc.2.1, hgc.2.2⟩
            exact ih visH stkH M vtop vis2 stk2 hsub2 hgc2 hlast
              (fun w hw2 => hws w (List.mem_cons_of_mem wn hw2)) hres
          · have hwn : wn ∈ g.nodes := by
              have hvt : vtop ∈ M := mem_of_getLast?_eq hlast
              exact (hcl vtop (hgc.2.2 vtop hvt)).1 wn (hws wn (List.mem_cons_self wn rest))
            exact hH wn vis stk M visH stkH hsub hw hwn hgc
              (fun l hl => by
                rw [hlast] at hl
                cases hl
                exact hws wn (List.mem_cons_self wn rest)) hhelp
      · rw [if_neg hw] at hres
        by_cases hstk : stk wn
        · have hwm : wn ∈ M := (hgc.1 wn).mp hstk
          have hreach : Relation.ReflTransGen (E g) wn vtop :=
            chain_last_reach M vtop hgc.2.1 hlast wn hwm
          have hedge : E g vtop wn := hws wn (List.mem_cons_self wn rest)
          exact ⟨wn, hgc.2.2 wn hwm, Relation.TransGen.tail' hreach hedge⟩
        · rw [if_neg hstk] at hres
          exact ih vis stk M vtop vis2 stk2 hsub hgc hlast
            (fun w hw2 => hws w (List.mem_cons_of_mem wn hw2)) hres

theorem cyclicTop_true (g : Graph) (hcl : Closed g) (fuel : Nat) :
    ∀ ws vis stk, (∀ u, stk u = false) → (∀ w ∈ ws, w ∈ g.nodes) →
      cyclicTop g fuel ws vis stk = some true → hasCycle g := by
  intro ws
  induction ws with
  | nil =>
    intro vis stk _ _ hres
    cases hres
  | cons v rest ih =>
    intro vis stk hstk hws hres
    rw [cyclicTop] at hres
    by_cases hv : vis v = false
    · rw [if_pos hv] at hres
      cases hhelp : cyclicHelper g fuel v vis stk with
      | none => rw [hhelp] at hres; cases hres
      | some r =>
        obtain ⟨b2, visH, stkH⟩ := r
        rw [hhelp] at hres
        cases b2
        · rcases fuel with _ | n
          · rw [cyclicHelper] at hhelp; cases hhelp
          · have hfix := (cyclic_stk_false g (n + 1)).1 v vis stk visH stkH
              (fun u hu => by rw [hstk u] at hu; cases hu) hv hhelp
            refine ih visH stkH (fun u => by rw [hfix u]; exact hstk u)
              (fun w hw => hws w (List.mem_cons_of_mem v hw)) hres
        · refine (cyclic_true_cycle g hcl fuel).1 v vis stk [] visH stkH
            (fun u hu => by rw [hstk u] at hu; cases hu) hv
            (hws v (List.mem_cons_self v rest))
            ⟨fun u => by rw [hstk u]; simp, List.chain'_nil, fun u hu => absurd hu
              (List.not_mem_nil u)⟩
            (fun l hl => by cases hl) hhelp
    · rw [if_neg hv] at hres
      exact ih vis stk hstk (fun w hw => hws w (List.mem_cons_of_mem v hw)) hres

theorem isCyclic_true (g : Graph) (hcl : Closed g) (h : isCyclic g = some true) :
    hasCycle g :=
  cyclicTop_true g hcl (g.nodes.length + 1) g.nodes (fun _ => false) (fun _ => false)
    (fun _ => rfl) (fun w hw => hw) h

/-- A node is black when it has been visited and left the recursion stack;
the DFS has finished exploring it. -/
def Black (vis stk : Nat → Bool) (u : Nat) : Prop :=
  vis u = true ∧ stk u = false

/-- Invariant of the cyclic DFS: the black set is closed under downstream
edges and contains no node lying on a directed cycle. -/
def BlackInv (g : Graph) (vis stk : Nat → Bool) : Prop :=
  (∀ u, Black vis stk u → ∀ w ∈ g.down u, Black vis stk w) ∧
  (∀ u, Black vis stk u → ¬ Relation.TransGen (E g) u u)

theorem blackInv_congr (g : Graph) (vis1 stk1 vis2 stk2 : Nat → Bool)
    (h : ∀ u, Black vis1 stk1 u ↔ Black vis2 stk2 u) (hinv : BlackInv g vis1 stk1) :
    BlackInv g vis2 stk2 := by
  refine ⟨fun u hu w hw => (h w).mp (hinv.1 u ((h u).mpr hu) w hw),
    fun u hu => hinv.2 u ((h u).mpr hu)⟩

theorem closed_reach (g : Graph) (S : Nat → Prop)
    (hS : ∀ u, S u → ∀ w ∈ g.down u, S w) {x y : Nat} (hx : S x)
    (hr : Relation.ReflTransGen (E g) x y) : S y := by
  induction hr with
  | refl => exact hx
  | tail hsteps hlast ih => exact hS _ ih _ hlast

theorem cyclic_false_inv (g : Graph) (hcl : Closed g) : ∀ fuel : Nat,
    (∀ v vis stk vis2 stk2, SubVis vis stk → vis v = false → v ∈ g.nodes →
      BlackInv g vis stk →
      cyclicHelper g fuel v vis stk = some (false, vis2, stk2) →
      BlackInv g vis2 stk2 ∧ Black vis2 stk2 v ∧
        (∀ u, Black vis stk u → Black vis2 stk2 u)) ∧
    (∀ ws vis stk vis2 stk2, SubVis vis stk → (∀ w ∈ ws, w ∈ g.nodes) →
      BlackInv g vis stk →
      cyclicLoop g fuel ws vis stk = some (false, vis2, stk2) →
      BlackInv g vis2 stk2 ∧ (∀ w ∈ ws, Black vis2 stk2 w) ∧
        (∀ u, Black vis stk u → Black vis2 stk2 u)) := by
  intro fuel
  induction fuel with
  | zero =>
    constructor
    · intro v vis stk vis2 stk2 _ _ _ _ hres
      rw [cyclicHelper] at hres
      cases hres
    · intro ws
      induction ws with
      | nil =>
        intro vis stk vis2 stk2 _ _ hinv hres
        rw [cyclicLoop] at hres
        cases hres
        exact ⟨hinv, fun w hw => absurd hw (List.not_mem_nil w), fun u h => h⟩
      | cons wn rest ih =>
        intro vis stk vis2 stk2 hsub hws hinv hres
        rw [cyclicLoop] at hres
        by_cases hw : vis wn = false
        · rw [if_pos hw] at hres
          rw [cyclicHelper] at hres
          cases hres
        · rw [if_neg hw] at hres
          by_cases hstk : stk wn
          · rw [if_pos hstk] at hres
            cases hres
          · rw [if_neg hstk] at hres
            have hblack : Black vis stk wn := ⟨by simpa using hw, by simpa using hstk⟩
            obtain ⟨hinv2, hrest, hmono⟩ := ih vis stk vis2 stk2 hsub
              (fun w hw2 => hws w (List.mem_cons_of_mem wn hw2)) hinv hres
            refine ⟨hinv2, ?_, hmono⟩
            intro w hw2
            rcases List.mem_cons.mp hw2 with he | hm
            · subst he; exact hmono w hblack
            · exact hrest w hm
  | succ n ihn =>
    have hH : ∀ v vis stk vis2 stk2, SubVis vis stk → vis v = false → v ∈ g.nodes →
        BlackInv g vis stk →
        cyclicHelper g (n + 1) v vis stk = some (false, vis2, stk2) →
        BlackInv g vis2 stk2 ∧ Black vis2 stk2 v ∧
          (∀ u, Black vis stk u → Black vis2 stk2 u) := by
      intro v vis stk vis2 stk2 hsub hv hvn hinv hres
      rw [cyclicHelper] at hres
      cases hloop : cyclicLoop g n (g.down v) (fupdate vis v true) (fupdate stk v true) with
      | none => rw [hloop] at hres; cases hres
      | some r =>
        obtain ⟨b2, visL, stkL⟩ := r
        rw [hloop] at hres
        cases b2
        swap
        · cases hres
        have hinj := Option.some.inj hres
        have hvis2 : vis2 = visL := (congrArg (fun p => p.2.1) hinj).symm
        have hstk2 : stk2 = fupdate stkL v false := (congrArg (fun p => p.2.2) hinj).symm
        subst hvis2
        subst hstk2
        have hvstk : stk v = false := by
          by_cases h : stk v = true
          · rw [hsub v h] at hv; cases hv
          · simpa using h
        have hsub1 : SubVis (fupdate vis v true) (fupdate stk v true) := by
          intro u hu
          by_cases huv : u = v
          · subst huv; exact fupdate_same _ _ _
          · rw [fupdate_other _ _ _ _ huv] at hu
            rw [fupdate_other _ _ _ _ huv]
            exact hsub u hu
        have hBeq : ∀ u, Black vis stk u ↔ Black (fupdate vis v true) (fupdate stk v true) u := by
          intro u
          by_cases huv : u = v
          · subst huv
            constructor
            · intro hb; rw [hb.1] at hv; cases hv
            · intro hb
              have h2 := hb.2
              rw [fupdate_same] at h2
              cases h2
          · rw [Black, Black, fupdate_other _ _ _ _ huv, fupdate_other _ _ _ _ huv]
        obtain ⟨hinvL, hdownL, hmonoL⟩ := ihn.2 (g.down v) _ _ vis2 stkL hsub1
          (fun w hw => (hcl v hvn).1 w hw)
          (blackInv_congr g vis stk _ _ hBeq hinv) hloop
        have hfixL := (cyclic_stk_false g n).2 (g.down v) _ _ vis2 stkL hsub1 hloop
        have hstkLv : stkL v = true := by rw [hfixL v]; exact fupdate_same _ _ _
        have hmonovisL := ((cyclic_mono g n).2 (g.down v) _ _ false vis2 stkL hloop).1
        have hvisLv : vis2 v = true := hmonovisL v (fupdate_same _ _ _)
        have hBfinal : ∀ u, u ≠ v →
            (Black vis2 (fupdate stkL v false) u ↔ Black vis2 stkL u) := by
          intro u huv
          rw [Black, Black, fupdate_other _ _ _ _ huv]
        have hBv : Black vis2 (fupdate stkL v false) v := ⟨hvisLv, fupdate_same _ _ _⟩
        have hclosedF : ∀ u, Black vis2 (fupdate stkL v false) u →
            ∀ w ∈ g.down u, Black vis2 (fupdate stkL v false) w := by
          intro u hu w hw
          have hwneq : ∀ x, Black vis2 stkL x → x ≠ v := by
            intro x hx he
            have h2 := hx.2
            rw [he, hstkLv] at h2
            cases h2
          by_cases huv : u = v
          · subst huv
            have hbw : Black vis2 stkL w := hdownL w hw
            exact (hBfinal w (hwneq w hbw)).mpr hbw
          · have hbu : Black vis2 stkL u := (hBfinal u huv).mp hu
            have hbw : Black vis2 stkL w := hinvL.1 u hbu w hw
            exact (hBfinal w (hwneq w hbw)).mpr hbw
        refine ⟨⟨hclosedF, ?_⟩, hBv, ?_⟩
        · intro u hu hcyc
          by_cases huv : u = v
          · subst huv
            obtain ⟨w1, hw1, hreach⟩ : ∃ w1, E g u w1 ∧ Relation.ReflTransGen (E g) w1 u :=
              Relation.TransGen.head'_iff.mp hcyc
            have hbw1 : Black vis2 stkL w1 := hdownL w1 hw1
            have hbu : Black vis2 stkL u :=
              closed_reach g (Black vis2 stkL) hinvL.1 hbw1 hreach
            have h2 := hbu.2
            rw [hstkLv] at h2
            cases h2
          · exact hinvL.2 u ((hBfinal u huv).mp hu) hcyc
        · intro u hu
          have huv : u ≠ v := by
            intro he
            have h1 := hu.1
            rw [he, hv] at h1
            cases h1
          refine (hBfinal u huv).mpr (hmonoL u ((hBeq u).mp hu))
    refine ⟨hH, ?_⟩
    intro ws
    induction ws with
    | nil =>
      intro vis stk vis2 stk2 _ _ hinv hres
      rw [cyclicLoop] at hres
      cases hres
      exact ⟨hinv, fun w hw => absurd hw (List.not_mem_nil w), fun u h => h⟩
    | cons wn rest ih =>
      intro vis stk vis2 stk2 hsub hws hinv hres
      rw [cyclicLoop] at hres
      by_cases hw : vis wn = false
      · rw [if_pos hw] at hres
        cases hhelp : cyclicHelper g (n + 1) wn vis stk with
        | none => rw [hhelp] at hres; cases hres
        | some r =>
          obtain ⟨b2, visH, stkH⟩ := r
          rw [hhelp] at hres
          cases b2
          swap
          · cases hres
          obtain ⟨hinvH, hBwn, hmonoH⟩ := hH wn vis stk visH stkH hsub hw
            (hws wn (List.mem_cons_self wn rest)) hinv hhelp
          have hfixH := (cyclic_stk_false g (n + 1)).1 wn vis stk visH stkH hsub hw hhelp
          have hmonovisH := ((cyclic_mono g (n + 1)).1 wn vis stk false visH stkH hw hhelp).1
          have hsub2 : SubVis visH stkH := by
            intro u hu
            rw [hfixH u] at hu
            exact hmonovisH u (hsub u hu)
          obtain ⟨hinvF, hrestF, hmonoF⟩ := ih visH stkH vis2 stk2 hsub2
            (fun w hw2 => hws w (List.mem_cons_of_mem wn hw2)) hinvH hres
          refine ⟨hinvF, ?_, fun u hu => hmonoF u (hmonoH u hu)⟩
          intro w hw2
          rcases List.mem_cons.mp hw2 with he | hm
          · subst he; exact hmonoF w hBwn
          · exact hrestF w hm
      · rw [if_neg hw] at hres
        by_cases hstk : stk wn
        · rw [if_pos hstk] at hres
          cases hres
        · rw [if_neg hstk] at hres
          have hblack : Black vis stk wn := ⟨by simpa using hw, by simpa using hstk⟩
          obtain ⟨hinv2, hrest, hmono⟩ := ih vis stk vis2 stk2 hsub
            (fun w hw2 => hws w (List.mem_cons_of_mem wn hw2)) hinv hres
          refine ⟨hinv2, ?_, hmono⟩
          intro w hw2
          rcases List.mem_cons.mp hw2 with he | hm
          · subst he; exact hmono w hblack
          · exact hrest w hm

theorem cyclicTop_false (g : Graph) (hcl : Closed g) (fuel : Nat) :
    ∀ ws vis stk, (∀ u, stk u = false) → (∀ w ∈ ws, w ∈ g.nodes) →
      BlackInv g vis stk → cyclicTop g fuel ws vis stk = some false →
      ∀ v ∈ ws, ¬ Relation.TransGen (E g) v v := by
  intro ws
  induction ws with
  | nil =>
    intro vis stk _ _ _ _ v hv
    cases hv
  | cons v rest ih =>
    intro vis stk hstk hws hinv hres
    rw [cyclicTop] at hres
    by_cases hv : vis v = false
    · rw [if_pos hv] at hres
      cases hhelp : cyclicHelper g fuel v vis stk with
      | none => rw [hhelp] at hres; cases hres
      | some r =>
        obtain ⟨b2, visH, stkH⟩ := r
        rw [hhelp] at hres
        cases b2
        swap
        · cases hres
        rcases fuel with _ | n
        · rw [cyclicHelper] at hhelp; cases hhelp
        have hsub : SubVis vis stk := fun u hu => by rw [hstk u] at hu; cases hu
        obtain ⟨hinvH, hBv, hmonoH⟩ := (cyclic_false_inv g hcl (n + 1)).1 v vis stk
          visH stkH hsub hv (hws v (List.mem_cons_self v rest)) hinv hhelp
        have hfixH := (cyclic_stk_false g (n + 1)).1 v vis stk visH stkH hsub hv hhelp
        intro u hu
        rcases List.mem_cons.mp hu with he | hm
        · subst he
          exact hinvH.2 u hBv
        · exact ih visH stkH (fun x => by rw [hfixH x]; exact hstk x)
            (fun w hw => hws w (List.mem_cons_of_mem v hw)) hinvH hres u hm
    · rw [if_neg hv] at hres
      intro u hu
      rcases List.mem_cons.mp hu with he | hm
      · subst he
        exact hinv.2 u ⟨by simpa using hv, hstk u⟩
      · exact ih vis stk hstk (fun w hw => hws w (List.mem_cons_of_mem v hw)) hinv hres u hm

theorem isCyclic_false (g : Graph) (hcl : Closed g) (h : isCyclic g = some false) :
    ¬ hasCycle g := by
  intro ⟨c, hc, hcyc⟩
  have hinv0 : BlackInv g (fun _ => false) (fun _ => false) := by
    refine ⟨fun u hu => ?_, fun u hu => ?_⟩
    · cases hu.1
    · cases hu.1
  exact cyclicTop_false g hcl (g.nodes.length + 1) g.nodes (fun _ => false)
    (fun _ => false) (fun _ => rfl) (fun w hw => hw) hinv0 h c hc hcyc

mutual

/-- Embedding of `Pipeline._isolated_nodes_helper` (src/egon/pipelines.py
lines 99-115) with an explicit recursion budget: return at once when the
node is already marked, otherwise mark it and recurse into its downstream
and then its upstream neighbours. -/
def isoHelper (g : Graph) (fuel : Nat) (v : Nat) (s : Nat → Bool) :
    Option (Nat → Bool) :=
  match fuel with
  | 0 => none
  | fuel + 1 =>
    if s v then some s
    else isoLoop g fuel (g.down v ++ g.up v) (fupdate s v true)
termination_by (fuel, 0)

/-- Embedding of the two neighbour loops of `_isolated_nodes_helper`,
concatenated in execution order. -/
def isoLoop (g : Graph) (fuel : Nat) (ws : List Nat) (s : Nat → Bool) :
    Option (Nat → Bool) :=
  match ws with
  | [] => some s
  | wn :: rest =>
    match isoHelper g fuel wn s with
    | none => none
    | some s2 => isoLoop g fuel rest s2
termination_by (fuel, ws.length + 1)

end

/-- Python exceptions raised inside `Pipeline.validate`: the class
`PipelineValidationError` with its two messages, and the `IndexError`
raised by `self._nodes[0]` on an empty pipeline. -/
inductive PipelineErr
  | cyclic
  | disconnected
  | indexError
deriving DecidableEq, Repr

/-- Embedding of `Pipeline._isolated_nodes` (src/egon/pipelines.py lines
117-122): traverse from the first registered node and report whether any
registered node is left unmarked.  An empty pipeline raises `IndexError`
at `self._nodes[0]`. -/
def isolatedNodes (g : Graph) : Option (Except PipelineErr Bool) :=
  match g.nodes with
  | [] => some (.error .indexError)
  | n0 :: _ =>
    match isoHelper g (g.nodes.length + 1) n0 (fun _ => false) with
    | none => none
    | some s => some (.ok (!(g.nodes.all fun v => s v)))

/-- Embedding of `Pipeline.validate` (src/egon/pipelines.py lines 38-53):
raise the cyclic error when `_is_cyclic()` is True, then the disconnected
error when `_isolated_nodes()` is True, and return normally otherwise.  No
node-level `validate()` is invoked. -/
def validate (g : Graph) : Option (Except PipelineErr Unit) :=
  match isCyclic g with
  | none => none
  | some true => some (.error .cyclic)
  | some false =>
    match isolatedNodes g with
    | none => none
    | some (.error e) => some (.error e)
    | some (.ok true) => some (.error .disconnected)
    | some (.ok false) => some (.ok ())

theorem iso_mono (g : Graph) : ∀ fuel : Nat,
    (∀ v s s2, isoHelper g fuel v s = some s2 → ∀ u, s u = true → s2 u = true) ∧
    (∀ ws s s2, isoLoop g fuel ws s = some s2 → ∀ u, s u = true → s2 u = true) := by
  intro fuel
  induction fuel with
  | zero =>
    constructor
    · intro v s s2 hres
      rw [isoHelper] at hres
      cases hres
    · intro ws
      induction ws with
      | nil =>
        intro s s2 hres
        rw [isoLoop] at hres
        cases hres
        exact fun u h => h
      | cons wn rest ih =>
        intro s s2 hres
        rw [isoLoop] at hres
        rw [isoHelper] at hres
        cases hres
  | succ n ihn =>
    have hH : ∀ v s s2, isoHelper g (n + 1) v s = some s2 →
        ∀ u, s u = true → s2 u = true := by
      intro v s s2 hres
      rw [isoHelper] at hres
      by_cases hv : s v
      · rw [if_pos hv] at hres
        cases hres
        exact fun u h => h
      · rw [if_neg hv] at hres
        intro u hu
        refine ihn.2 (g.down v ++ g.up v) _ _ hres u ?_
        by_cases huv : u = v
        · subst huv; exact fupdate_same _ _ _
        · rw [fupdate_other _ _ _ _ huv]; exact hu
    refine ⟨hH, ?_⟩
    intro ws
    induction ws with
    | nil =>
      intro s s2 hres
      rw [isoLoop] at hres
      cases hres
      exact fun u h => h
    | cons wn rest ih =>
      intro s s2 hres
      rw [isoLoop] at hres
      cases hhelp : isoHelper g (n + 1) wn s with
      | none => rw [hhelp] at hres; cases hres
      | some s1 =>
        rw [hhelp] at hres
        exact fun u hu => ih s1 s2 hres u (hH wn s s1 hhelp u hu)

theorem iso_some (g : Graph) (hcl : Closed g) : ∀ fuel : Nat,
    (∀ v s, v ∈ g.nodes → unmarked g s < fuel →
      ∃ s2, isoHelper g fuel v s = some s2) ∧
    (∀ ws s, (∀ w ∈ ws, w ∈ g.nodes) → unmarked g s < fuel →
      ∃ s2, isoLoop g fuel ws s = some s2) := by
  intro fuel
  induction fuel with
  | zero =>
    exact ⟨fun v s _ h => absurd h (by omega), fun ws s _ h => absurd h (by omega)⟩
  | succ n ihn =>
    have hH : ∀ v s, v ∈ g.nodes → unmarked g s < n + 1 →
        ∃ s2, isoHelper g (n + 1) v s = some s2 := by
      intro v s hv hfuel
      rw [isoHelper]
      by_cases hs : s v
      · rw [if_pos hs]
        exact ⟨s, rfl⟩
      · rw [if_neg hs]
        refine ihn.2 (g.down v ++ g.up v) _ (fun w hw => ?_) ?_
        · rcases List.mem_append.mp hw with h | h
          · exact (hcl v hv).1 w h
          · exact (hcl v hv).2 w h
        · exact unmarked_lt_of_fuel g s v hv (by simpa using hs) n hfuel
    refine ⟨hH, ?_⟩
    intro ws
    induction ws with
    | nil =>
      intro s _ _
      exact ⟨s, by rw [isoLoop]⟩
    | cons wn rest ih =>
      intro s hws hfuel
      rw [isoLoop]
      obtain ⟨s1, hs1⟩ := hH wn s (hws wn (List.mem_cons_self wn rest)) hfuel
      rw [hs1]
      refine ih s1 (fun w hw => hws w (List.mem_cons_of_mem wn hw)) ?_
      exact Nat.lt_of_le_of_lt
        (unmarked_le_of_mono g s s1 ((iso_mono g (n + 1)).1 wn s s1 hs1)) hfuel

theorem iso_sound (g : Graph) : ∀ fuel : Nat,
    (∀ v s s2, isoHelper g fuel v s = some s2 →
      ∀ u, s2 u = true → s u = true ∨ UReach g v u) ∧
    (∀ ws s s2, isoLoop g fuel ws s = some s2 →
      ∀ u, s2 u = true → s u = true ∨ ∃ w ∈ ws, UReach g w u) := by
  intro fuel
  induction fuel with
  | zero =>
    constructor
    · intro v s s2 hres
      rw [isoHelper] at hres
      cases hres
    · intro ws
      induction ws with
      | nil =>
        intro s s2 hres
        rw [isoLoop] at hres
        cases hres
        exact fun u h => Or.inl h
      | cons wn rest ih =>
        intro s s2 hres
        rw [isoLoop, isoHelper] at hres
        cases hres
  | succ n ihn =>
    have hH : ∀ v s s2, isoHelper g (n + 1) v s = some s2 →
        ∀ u, s2 u = true → s u = true ∨ UReach g v u := by
      intro v s s2 hres u hu
      rw [isoHelper] at hres
      by_cases hv : s v
      · rw [if_pos hv] at hres
        cases hres
        exact Or.inl hu
      · rw [if_neg hv] at hres
        rcases ihn.2 (g.down v ++ g.up v) _ _ hres u hu with h | ⟨w, hw, hru⟩
        · by_cases huv : u = v
          · subst huv
            exact Or.inr Relation.ReflTransGen.refl
          · rw [fupdate_other _ _ _ _ huv] at h
            exact Or.inl h
        · refine Or.inr (Relation.ReflTransGen.head ?_ hru)
          rcases List.mem_append.mp hw with h | h
          · exact Or.inl h
          · exact Or.inr h
    refine ⟨hH, ?_⟩
    intro ws
    induction ws with
    | nil =>
      intro s s2 hres
      rw [isoLoop] at hres
      cases hres
      exact fun u h => Or.inl h
    | cons wn rest ih =>
      intro s s2 hres u hu
      rw [isoLoop] at hres
      cases hhelp : isoHelper g (n + 1) wn s with
      | none => rw [hhelp] at hres; cases hres
      | some s1 =>
        rw [hhelp] at hres
        rcases ih s1 s2 hres u hu with h | ⟨w, hw, hru⟩
        · rcases hH wn s s1 hhelp u h with h2 | h2
          · exact Or.inl h2
          · exact Or.inr ⟨wn, List.mem_cons_self wn rest, h2⟩
        · exact Or.inr ⟨w, List.mem_cons_of_mem wn hw, hru⟩

/-- Invariant of the connectivity DFS: every neighbour of a marked node is
either marked or pending. -/
def MarkClosed (g : Graph) (s : Nat → Bool) (A : Nat → Prop) : Prop :=
  ∀ u, s u = true → ∀ w, ustep g u w → s w = true ∨ A w

theorem iso_complete (g : Graph) : ∀ fuel : Nat,
    (∀ v s s2, isoHelper g fuel v s = some s2 →
      ∀ A : Nat → Prop, MarkClosed g s (fun w => A w ∨ w = v) →
        MarkClosed g s2 A ∧ s2 v = true) ∧
    (∀ ws s s2, isoLoop g fuel ws s = some s2 →
      ∀ A : Nat → Prop, MarkClosed g s (fun w => A w ∨ w ∈ ws) →
        MarkClosed g s2 A ∧ ∀ w ∈ ws, s2 w = true) := by
  intro fuel
  induction fuel with
  | zero =>
    constructor
    · intro v s s2 hres
      rw [isoHelper] at hres
      cases hres
    · intro ws
      induction ws with
      | nil =>
        intro s s2 hres A hA
        rw [isoLoop] at hres
        cases hres
        refine ⟨?_, fun w hw => absurd hw (List.not_mem_nil w)⟩
        intro u hu w hw
        rcases hA u hu w hw with h | h | h
        · exact Or.inl h
        · exact Or.inr h
        · cases h
      | cons wn rest ih =>
        intro s s2 hres
        rw [isoLoop, isoHelper] at hres
        cases hres
  | succ n ihn =>
    have hH : ∀ v s s2, isoHelper g (n + 1) v s = some s2 →
        ∀ A : Nat → Prop, MarkClosed g s (fun w => A w ∨ w = v) →
          MarkClosed g s2 A ∧ s2 v = true := by
      intro v s s2 hres A hA
      rw [isoHelper] at hres
      by_cases hv : s v
      · rw [if_pos hv] at hres
        cases hres
        refine ⟨?_, hv⟩
        intro u hu w hw
        rcases hA u hu w hw with h | h | h
        · exact Or.inl h
        · exact Or.inr h
        · subst h; exact Or.inl hv
      · rw [if_neg hv] at hres
        have hA1 : MarkClosed g (fupdate s v true)
            (fun w => A w ∨ w ∈ g.down v ++ g.up v) := by
          intro u hu w hw
          by_cases huv : u = v
          · subst huv
            refine Or.inr (Or.inr ?_)
            rw [List.mem_append]
            exact hw
          · rw [fupdate_other _ _ _ _ huv] at hu
            rcases hA u hu w hw with h | h | h
            · by_cases hwv : w = v
              · subst hwv; exact Or.inl (fupdate_same _ _ _)
              · exact Or.inl (by rw [fupdate_other _ _ _ _ hwv]; exact h)
            · exact Or.inr (Or.inl h)
            · subst h; exact Or.inl (fupdate_same _ _ _)
        obtain ⟨hcl2, hmarked⟩ := ihn.2 (g.down v ++ g.up v) _ _ hres A hA1
        refine ⟨hcl2, ?_⟩
        exact (iso_mono g n).2 (g.down v ++ g.up v) _ _ hres v (fupdate_same _ _ _)
    refine ⟨hH, ?_⟩
    intro ws
    induction ws with
    | nil =>
      intro s s2 hres A hA
      rw [isoLoop] at hres
      cases hres
      refine ⟨?_, fun w hw => absurd hw (List.not_mem_nil w)⟩
      intro u hu w hw
      rcases hA u hu w hw with h | h | h
      · exact Or.inl h
      · exact Or.inr h
      · cases h
    | cons wn rest ih =>
      intro s s2 hres A hA
      rw [isoLoop] at hres
      cases hhelp : isoHelper g (n + 1) wn s with
      | none => rw [hhelp] at hres; cases hres
      | some s1 =>
        rw [hhelp] at hres
        have hA0 : MarkClosed g s (fun w => (A w ∨ w ∈ rest) ∨ w = wn) := by
          intro u hu w hw
          rcases hA u hu w hw with h | h | h
          · exact Or.inl h
          · exact Or.inr (Or.inl (Or.inl h))
          · rcases List.mem_cons.mp h with he | hm
            · exact Or.inr (Or.inr he)
            · exact Or.inr (Or.inl (Or.inr hm))
        obtain ⟨hcl1, hwn1⟩ := hH wn s s1 hhelp (fun w => A w ∨ w ∈ rest) hA0
        obtain ⟨hcl2, hrest2⟩ := ih s1 s2 hres A hcl1
        refine ⟨hcl2, ?_⟩
        intro w hw
        rcases List.mem_cons.mp hw with he | hm
        · subst he
          exact (iso_mono g (n + 1)).2 rest s1 s2 hres w hwn1
        · exact hrest2 w hm

theorem ureach_closed (g : Graph) (S : Nat → Prop)
    (hS : ∀ u, S u → ∀ w, ustep g u w → S w) {x y : Nat} (hx : S x)
    (h : UReach g x y) : S y := by
  induction h with
  | refl => exact hx
  | tail hsteps hlast ih => exact hS _ ih _ hlast

theorem isCyclic_eq_true (g : Graph) (hcl : Closed g) (hcyc : hasCycle g) :
    isCyclic g = some true := by
  obtain ⟨b, hb⟩ := isCyclic_some g hcl
  cases b
  · exact absurd hcyc (isCyclic_false g hcl hb)
  · exact hb

theorem isCyclic_eq_false (g : Graph) (hcl : Closed g) (hacyc : ¬ hasCycle g) :
    isCyclic g = some false := by
  obtain ⟨b, hb⟩ := isCyclic_some g hcl
  cases b
  · exact hb
  · exact absurd (isCyclic_true g hcl hb) hacyc

theorem isolatedNodes_shape (g : Graph) (hcl : Closed g) (n0 : Nat) (rest : List Nat)
    (hn : g.nodes = n0 :: rest) : ∃ b, isolatedNodes g = some (.ok b) := by
  rw [isolatedNodes, hn]
  dsimp only
  obtain ⟨s, hs⟩ := (iso_some g hcl (g.nodes.length + 1)).1 n0 (fun _ => false)
    (by rw [hn]; exact List.mem_cons_self n0 rest) (unmarked_lt_top g)
  rw [hn] at hs
  rw [hs]
  exact ⟨_, rfl⟩

theorem isolatedNodes_false_connected (g : Graph) (hcl : Closed g) (hsym : UndirSym g)
    (h : isolatedNodes g = some (.ok false)) :
    ∀ u ∈ g.nodes, ∀ v ∈ g.nodes, UReach g u v := by
  intro u hu v hv
  rcases hn : g.nodes with _ | ⟨n0, rest⟩
  · rw [hn] at hu
    cases hu
  · rw [isolatedNodes, hn] at h
    dsimp only at h
    rcases hs : isoHelper g ((n0 :: rest).length + 1) n0 (fun _ => false) with _ | s
    · rw [hs] at h
      cases h
    · rw [hs] at h
      have h2 := Except.ok.inj (Option.some.inj h)
      have hall : ((n0 :: rest).all fun x => s x) = true := by
        cases hb : (n0 :: rest).all fun x => s x
        · rw [hb] at h2
          simp at h2
        · rfl
      have hroot : ∀ x ∈ g.nodes, UReach g n0 x := by
        intro x hx
        have hmark : s x = true := by
          rw [List.all_eq_true] at hall
          rw [hn] at hx
          exact hall x hx
        rcases (iso_sound g _).1 n0 (fun _ => false) s hs x hmark with h3 | h3
        · cases h3
        · exact h3
      exact Relation.ReflTransGen.trans (ureach_symm hsym (hroot u hu)) (hroot v hv)

theorem isolatedNodes_of_connected (g : Graph) (hcl : Closed g) (n0 : Nat)
    (rest : List Nat) (hn : g.nodes = n0 :: rest)
    (hconn : ∀ v ∈ g.nodes, UReach g n0 v) :
    isolatedNodes g = some (.ok false) := by
  obtain ⟨s, hs⟩ := (iso_some g hcl (g.nodes.length + 1)).1 n0 (fun _ => false)
    (by rw [hn]; exact List.mem_cons_self n0 rest) (unmarked_lt_top g)
  have hcomp := (iso_complete g (g.nodes.length + 1)).1 n0 (fun _ => false) s hs
    (fun _ => False) (fun u hu => by cases hu)
  have hclosed : ∀ u, s u = true → ∀ w, ustep g u w → s w = true := by
    intro u hu w hw
    rcases hcomp.1 u hu w hw with h | h
    · exact h
    · cases h
  have hreach : ∀ v, UReach g n0 v → s v = true :=
    fun v hv => ureach_closed g (fun x => s x = true) hclosed hcomp.2 hv
  rw [hn] at hs
  rw [isolatedNodes, hn]
  dsimp only
  rw [hs]
  dsimp only
  have hall : ((n0 :: rest).all fun v => s v) = true := by
    rw [List.all_eq_true]
    intro v hv
    exact hreach v (hconn v (by rw [hn]; exact hv))
  rw [hall]
  rfl

/-- Amended claim C5: `Pipeline.validate()` raises the cyclic
pipeline-validation error whenever the directed graph over the registered
nodes contains a cycle; when the graph is acyclic it raises the
disconnected pipeline-validation error whenever some registered node is
unreachable from another in the undirected graph (the cyclic check runs
first, so a graph that is both cyclic and disconnected gets the cyclic
error); and when validation succeeds the graph is acyclic and the
registered nodes form a single undirected connected component. -/
theorem validate_graph_checks (g : Graph) (hcl : Closed g) (hsym : UndirSym g) :
    (hasCycle g → validate g = some (.error .cyclic)) ∧
    (¬ hasCycle g → (∃ u ∈ g.nodes, ∃ v ∈ g.nodes, ¬ UReach g u v) →
      validate g = some (.error .disconnected)) ∧
    (validate g = some (.ok ()) →
      ¬ hasCycle g ∧ ∀ u ∈ g.nodes, ∀ v ∈ g.nodes, UReach g u v) := by
  refine ⟨?_, ?_, ?_⟩
  · intro hcyc
    rw [validate, isCyclic_eq_true g hcl hcyc]
  · intro hacyc ⟨u, hu, v, hv, hnr⟩
    rw [validate, isCyclic_eq_false g hcl hacyc]
    rcases hn : g.nodes with _ | ⟨n0, rest⟩
    · rw [hn] at hu
      cases hu
    · obtain ⟨b, hb⟩ := isolatedNodes_shape g hcl n0 rest hn
      cases b
      · exact absurd (isolatedNodes_false_connected g hcl hsym hb u hu v hv) hnr
      · rw [hb]
  · intro hok
    rcases hc : isCyclic g with _ | b
    · rw [validate, hc] at hok
      cases hok
    · cases b
      · rw [validate, hc] at hok
        rcases hi : isolatedNodes g with _ | r
        · rw [hi] at hok
          cases hok
        · rcases r with e | b2
          · rw [hi] at hok
            cases hok
          · cases b2
            · exact ⟨isCyclic_false g hcl hc,
                isolatedNodes_false_connected g hcl hsym hi⟩
            · rw [hi] at hok
              cases hok
      · rw [validate, hc] at hok
        cases hok

/-- Concrete pipeline graph: nodes 0 and 1 feed each other (a directed
cycle) and node 2 is isolated.  The graph is both cyclic and
disconnected. -/
def gcd : Graph where
  nodes := [0, 1, 2]
  down := fun n => if n = 0 then [1] else if n = 1 then [0] else []
  up := fun n => if n = 0 then [1] else if n = 1 then [0] else []

theorem gcd_closed : Closed gcd := by
  intro v hv
  fin_cases hv <;>
    exact ⟨by intro w hw; fin_cases hw <;> decide,
      by intro w hw; fin_cases hw <;> decide⟩

theorem gcd_sym : UndirSym gcd := by
  intro a b
  constructor
  · intro h
    by_cases hb0 : b = 0
    · subst hb0
      simp [gcd] at h
      subst h
      simp [gcd]
    · by_cases hb1 : b = 1
      · subst hb1
        simp [gcd] at h
        subst h
        simp [gcd]
      · simp [gcd, hb0, hb1] at h
  · intro h
    by_cases ha0 : a = 0
    · subst ha0
      simp [gcd] at h
      subst h
      simp [gcd]
    · by_cases ha1 : a = 1
      · subst ha1
        simp [gcd] at h
        subst h
        simp [gcd]
      · simp [gcd, ha0, ha1] at h

theorem gcd_cycle : hasCycle gcd :=
  ⟨0, by decide, Relation.TransGen.head
    (show (1 : Nat) ∈ gcd.down 0 by decide)
    (Relation.TransGen.single (show (0 : Nat) ∈ gcd.down 1 by decide))⟩

theorem gcd_unreachable : ¬ UReach gcd 0 2 := by
  intro hreach
  have hS : ∀ u, u ≠ 2 → ∀ w, ustep gcd u w → w ≠ 2 := by
    intro u hu w hw
    have h : w ∈ gcd.down u := by
      rcases hw with h | h
      · exact h
      · exact h
    by_cases hu0 : u = 0
    · subst hu0
      simp [gcd] at h
      subst h
      decide
    · by_cases hu1 : u = 1
      · subst hu1
        simp [gcd] at h
        subst h
        decide
      · simp [gcd, hu0, hu1] at h
  exact ureach_closed gcd (fun x => x ≠ 2) hS (by decide) hreach rfl

/-- Counterexample to claim C5 as stated: in the pipeline `gcd` the
registered node 2 is unreachable from node 0 in the undirected graph, yet
`validate()` raises the cyclic error, not the disconnected one, because the
cyclic check runs first. -/
theorem validate_counterexample :
    (0 ∈ gcd.nodes ∧ 2 ∈ gcd.nodes ∧ ¬ UReach gcd 0 2) ∧
    validate gcd = some (.error .cyclic) ∧
    validate gcd ≠ some (.error .disconnected) := by
  have key : validate gcd = some (.error .cyclic) := by
    rw [validate, isCyclic_eq_true gcd gcd_closed gcd_cycle]
  refine ⟨⟨by decide, by decide, gcd_unreachable⟩, key, ?_⟩
  rw [key]
  intro h
  have h2 := Except.error.inj (Option.some.inj h)
  cases h2

/-- Witness for the amended claim C5, applying the theorem to the concrete
graph `gcd`. -/
theorem validate_graph_checks_witness :
    Closed gcd ∧ UndirSym gcd ∧ hasCycle gcd ∧
    validate gcd = some (.error .cyclic) :=
  ⟨gcd_closed, gcd_sym, gcd_cycle,
    (validate_graph_checks gcd gcd_closed gcd_sym).1 gcd_cycle⟩

/-- Concrete pipeline graph: node 0 feeds node 1; acyclic and connected. -/
def gline : Graph where
  nodes := [0, 1]
  down := fun n => if n = 0 then [1] else []
  up := fun n => if n = 1 then [0] else []

theorem gline_closed : Closed gline := by
  intro v hv
  fin_cases hv <;>
    exact ⟨by intro w hw; fin_cases hw <;> decide,
      by intro w hw; fin_cases hw <;> decide⟩

theorem gline_acyclic : ¬ hasCycle gline := by
  intro ⟨c, hc, hcyc⟩
  obtain ⟨w1, hw1, hreach⟩ := Relation.TransGen.head'_iff.mp hcyc
  fin_cases hc
  · simp [gline, E] at hw1
    subst hw1
    have hS : ∀ u, u ≠ 0 → ∀ w ∈ gline.down u, w ≠ 0 := by
      intro u hu w hw
      by_cases hu0 : u = 0
      · exact absurd hu0 hu
      · simp [gline, hu0] at hw
    exact closed_reach gline (fun x => x ≠ 0) hS (by decide) hreach rfl
  · simp [gline, E] at hw1

theorem gline_connected : ∀ v ∈ gline.nodes, UReach gline 0 v := by
  intro v hv
  fin_cases hv
  · exact Relation.ReflTransGen.refl
  · exact Relation.ReflTransGen.single (Or.inl (by decide))

theorem gline_validate_ok : validate gline = some (.ok ()) := by
  rw [validate, isCyclic_eq_false gline gline_closed gline_acyclic,
    isolatedNodes_of_connected gline gline_closed 0 [1] rfl gline_connected]

end Pipeline

/-- Concrete object world realising the graph `gline`: node 0 owns output
connector 10 (connected to input 11 of node 1) and an extra unconnected
output connector 12 named after the pipeline test suite. -/
def w6 : World where
  kind := fun c => if c = 11 then .input else .output
  partners := fun c => if c = 10 then [11] else if c = 11 then [10] else []
  parent := fun c => if c = 11 then some 1 else if c ≤ 12 then some 0 else none
  queue := fun _ => []
  connName := fun c => if c = 12 then "extra_output" else "conn"
  nodeInputs := fun n => if n = 1 then [11] else []
  nodeOutputs := fun n => if n = 0 then [10, 12] else []
  nodeStates := fun _ => [false]

/-- Claim C6 fails on the code: `Pipeline.validate` performs only the two
graph checks and never invokes `Node.validate`, so the pipeline of `gline`
validates successfully although its node 0 has an unconnected output and
fails its own validation.  The test
`tests/test_pipeline/test_Pipeline.py::Validation.test_invalid_node_error`
expects exactly this configuration to raise `NodeValidationError` from
`pipeline.validate()`. -/
theorem pipeline_validate_skips_node_validate :
    Pipeline.validate Pipeline.gline = some (.ok ()) ∧
    Node.validate w6 0 = .error (.unconnectedOutput "extra_output") ∧
    Node.validate w6 1 = .ok () := by
  refine ⟨Pipeline.gline_validate_ok, ?_, ?_⟩
  · rfl
  · rfl

end Egon
